import Mathlib

/-!
Shallow embedding of the ARIES crash-recovery simulator (src/aries.js) and
proofs about its forward processing, crash, analysis, redo and undo phases.

Modelling conventions:

* Javascript objects used as string-keyed maps become association lists
  (`Table`); the simulator never creates a key twice, and all table
  mutations go through `Table.set` (property assignment), `Table.del`
  (the `delete` operator) and `Table.find` (property read).
* `console.assert` does not abort a Javascript program; it reports the
  failure and execution continues.  We model the report by setting the
  `assert_failed` flag on the state and continuing, exactly as the source
  does.  At the few places where the source would subsequently crash with
  a runtime `TypeError` (reading a property of `undefined`), the embedding
  sets the flag and leaves the rest of that step as a no-op; those places
  are marked with comments and are unreachable in `simulate`.
* `deep_copy` is the identity: the embedding is pure, so value copies and
  the original are indistinguishable.
* The `explanation` strings of the source are presentation-only (spec §6)
  and are not modelled.
* The dynamically-typed fields of a compensation log record are modelled
  by `JSVal` because the source stores a number-or-undefined and a string
  in them (see `aries.undo`, where the `aries.Log.CLR` constructor is
  called with its `after` and `undo_next_lsn` arguments transposed).
* `losers.sort()` uses Javascript's default comparator, which compares
  the decimal string representations of the numbers; `jsSort` reproduces
  this.
-/

set_option maxHeartbeats 2000000
set_option maxRecDepth 100000

namespace aries

/-- JSVal models the dynamically-typed values that end up in the loosely
typed fields of a compensation log record: a JS number, a JS string, or
the JS `undefined` value. -/
inductive JSVal where
  | num (n : Int)
  | str (s : String)
  | undef
deriving DecidableEq

/-- Association-list model of a Javascript object used as a map with
string keys. -/
abbrev Table (α : Type) : Type := List (String × α)

/-- Property read `t[k]`: the value at key `k`, if present. -/
def Table.find {α : Type} : Table α → String → Option α
  | [], _ => none
  | kv :: t, k => if k = kv.1 then some kv.2 else Table.find t k

/-- Property write `t[k] = v`: replace in place if the key is present,
otherwise append the new binding. -/
def Table.set {α : Type} : Table α → String → α → Table α
  | [], k, v => [(k, v)]
  | kv :: t, k, v => if k = kv.1 then (k, v) :: t else kv :: Table.set t k v

/-- Property deletion `delete t[k]`. -/
def Table.del {α : Type} : Table α → String → Table α
  | [], _ => []
  | kv :: t, k => if kv.1 = k then Table.del t k else kv :: Table.del t k

/-- Key list of a table. -/
def Table.keys {α : Type} (t : Table α) : List String := t.map Prod.fst

/-- Embeds `aries.is_object_empty`. -/
def is_object_empty {α : Type} (t : Table α) : Bool := t.isEmpty

/-- Transaction status (`aries.TxnStatus`). -/
inductive TxnStatus where
  | in_progress
  | committed
  | aborted
deriving DecidableEq

/-- Embeds `aries.TxnTableEntry`; `aries.begin_txn` creates entries whose
two fields are `undefined`, hence the `Option`s. -/
structure TxnTableEntry where
  txn_status : Option TxnStatus
  last_lsn : Option Nat
deriving DecidableEq

/-- Embeds `aries.DirtyPageTableEntry`. -/
structure DirtyPageTableEntry where
  rec_lsn : Nat
deriving DecidableEq

/-- Embeds `aries.Page`.  `page_lsn` is an `Int` because provisioned pages
start with the sentinel page LSN `-1`. -/
structure Page where
  page_lsn : Int
  value : String
deriving DecidableEq

/-- Embeds `aries.Log.Entry` as a closed sum of the five entry kinds.  The
`after` and `undo_next_lsn` fields of a CLR are `JSVal` because the source
populates them with a number-or-undefined and a string respectively. -/
inductive Entry where
  | update (lsn : Nat) (txn_id page_id before after : String) (prev_lsn : Option Nat)
  | commit (lsn : Nat) (txn_id : String) (prev_lsn : Option Nat)
  | endE (lsn : Nat) (txn_id : String) (prev_lsn : Option Nat)
  | clr (lsn : Nat) (txn_id page_id : String) (after undo_next_lsn : JSVal)
      (prev_lsn : Option Nat)
  | checkpoint (lsn : Nat) (dirty_page_table : Table DirtyPageTableEntry)
      (txn_table : Table TxnTableEntry)
deriving DecidableEq

/-- LSN field carried by every log entry. -/
def Entry.lsn : Entry → Nat
  | .update l .. => l
  | .commit l .. => l
  | .endE l .. => l
  | .clr l .. => l
  | .checkpoint l .. => l

/-- Embeds `aries.Op.Operation`. -/
inductive Op where
  | write (txn_id page_id value : String)
  | commit (txn_id : String)
  | flush (page_id : String)
  | checkpoint
deriving DecidableEq

/-- Embeds `aries.Phase`. -/
inductive Phase where
  | normal
  | analysis
  | redo
  | undo
  | crashed
deriving DecidableEq

/-- Embeds the `aries.State` aggregate.  `assert_failed` records whether a
`console.assert` with a false condition has run (see the module comment);
`explanation` is not modelled. -/
structure State where
  phase : Phase
  ops : List Op
  num_ops_processed : Nat
  log : List Entry
  num_flushed : Nat
  log_position : Option Nat
  txn_table : Table TxnTableEntry
  dirty_page_table : Table DirtyPageTableEntry
  buffer_pool : Table Page
  disk : Table Page
  assert_failed : Bool
deriving DecidableEq

/-- Embeds `aries.pages_accessed`. -/
def pages_accessed : List Op → List String
  | [] => []
  | .write _ p _ :: rest => p :: pages_accessed rest
  | .flush p :: rest => p :: pages_accessed rest
  | _ :: rest => pages_accessed rest

/-- Embeds the `aries.State` constructor. -/
def State.new (ops : List Op) : State :=
  { phase := .normal
    ops := ops
    num_ops_processed := 0
    log := []
    num_flushed := 0
    log_position := none
    txn_table := []
    dirty_page_table := []
    buffer_pool := []
    disk := []
    assert_failed := false }

/-- Embeds `aries.init`: provision every referenced page on disk with a
sentinel page LSN of `-1` and the sentinel value `⊥`. -/
def init (s : State) (ops : List Op) : State :=
  { s with disk := (pages_accessed ops).foldl (fun d p => Table.set d p ⟨-1, "⊥"⟩) s.disk }

/-- Initial state of `aries.simulate`: the fresh state after `aries.init`. -/
def initState (ops : List Op) : State := init (State.new ops) ops

/-- Auxiliary scan for `latest_checkpoint_lsn`. -/
def latest_ckpt_aux : List Entry → Nat → Nat → Nat
  | [], _, best => best
  | e :: t, i, best =>
    latest_ckpt_aux t (i + 1) (match e with | .checkpoint .. => i | _ => best)

/-- Embeds `aries.latest_checkpoint_lsn`: index of the last checkpoint in
the log, or 0 when there is none. -/
def latest_checkpoint_lsn (s : State) : Nat := latest_ckpt_aux s.log 0 0

/-- Auxiliary fold for `min_rec_lsn`. -/
def min_rec_lsn_aux : Table DirtyPageTableEntry → Option Nat → Option Nat
  | [], m => m
  | kv :: t, none => min_rec_lsn_aux t (some kv.2.rec_lsn)
  | kv :: t, some m => min_rec_lsn_aux t (some (Nat.min m kv.2.rec_lsn))

/-- Embeds `aries.min_rec_lsn`: the minimum recLSN in the dirty page table,
or `none` (JS `undefined`) when the table is empty. -/
def min_rec_lsn (s : State) : Option Nat := min_rec_lsn_aux s.dirty_page_table none

/-- Embeds `aries.pin`.  When the page is not on disk the source's
`console.assert` fails and the subsequent `JSON.parse` of `undefined`
raises; we set the flag and skip the copy (unreachable in `simulate`). -/
def pin (s : State) (page_id : String) : State :=
  match Table.find s.disk page_id with
  | none => { s with assert_failed := true }
  | some pg =>
    if (Table.find s.buffer_pool page_id).isSome then s
    else { s with buffer_pool := Table.set s.buffer_pool page_id pg }

/-- Embeds `aries.flush` (the page-store eviction helper, not the log
flush): copy the buffered page to disk and evict it. -/
def flush (s : State) (page_id : String) : State :=
  let s1 := if (Table.find s.disk page_id).isSome then s
            else { s with assert_failed := true }
  match Table.find s1.buffer_pool page_id with
  | none => s1
  | some pg =>
    { s1 with disk := Table.set s1.disk page_id pg
              buffer_pool := Table.del s1.buffer_pool page_id }

/-- Embeds `aries.dirty`: enter the page in the dirty page table with the
given recLSN unless it is already there. -/
def dirty (s : State) (page_id : String) (rec_lsn : Nat) : State :=
  let s1 := if (Table.find s.disk page_id).isSome then s
            else { s with assert_failed := true }
  if (Table.find s1.dirty_page_table page_id).isSome then s1
  else { s1 with dirty_page_table := Table.set s1.dirty_page_table page_id ⟨rec_lsn⟩ }

/-- Embeds `aries.begin_txn`: enter the transaction with `undefined` status
and `undefined` lastLSN unless it is already present. -/
def begin_txn (s : State) (txn_id : String) : State :=
  if (Table.find s.txn_table txn_id).isSome then s
  else { s with txn_table := Table.set s.txn_table txn_id ⟨none, none⟩ }

/-- Embeds `aries.flush_log`: raise the durable count to cover `lsn`.  The
argument is an `Int` because `process_flush` passes a page LSN, which can
be the sentinel `-1`; `Int.toNat` realises Javascript's
`Math.max(num_flushed, lsn + 1)` for every integer argument. -/
def flush_log (s : State) (lsn : Int) : State :=
  { s with num_flushed := max s.num_flushed (lsn + 1).toNat }

/-- Embeds `aries.rec_lsn`. -/
def rec_lsn (s : State) (page_id : String) : Option Nat :=
  (Table.find s.dirty_page_table page_id).map (·.rec_lsn)

/-- Embeds `aries.last_lsn`: the transaction's lastLSN, or `none` when the
transaction is absent (or its lastLSN is still `undefined`). -/
def last_lsn (s : State) (txn_id : String) : Option Nat :=
  (Table.find s.txn_table txn_id).bind (·.last_lsn)

/-- Embeds `aries.page_lsn`: the buffered page's pageLSN, not read from
disk. -/
def page_lsn (s : State) (page_id : String) : Option Int :=
  (Table.find s.buffer_pool page_id).map (·.page_lsn)

/-- Assignment `state.txn_table[txn_id].last_lsn = lsn`.  When the
transaction is absent the source raises a `TypeError`; every call site is
guarded by presence, so the absent case is a no-op here. -/
def set_last_lsn (s : State) (txn_id : String) (lsn : Nat) : State :=
  match Table.find s.txn_table txn_id with
  | some e => { s with txn_table := Table.set s.txn_table txn_id { e with last_lsn := some lsn } }
  | none => s

/-- Embeds `aries.process_write`. -/
def process_write (s : State) (txn_id page_id value : String) : State :=
  let lsn := s.log.length
  let s1 := pin s page_id
  match Table.find s1.buffer_pool page_id with
  | none =>
    -- Only reachable when the page was never provisioned; the source
    -- raises a TypeError on `state.buffer_pool[write.page_id].value`.
    { s1 with assert_failed := true }
  | some pg =>
    let before := pg.value
    let s2 := { s1 with buffer_pool := Table.set s1.buffer_pool page_id ⟨(lsn : Int), value⟩ }
    let s3 := dirty s2 page_id lsn
    let prev_lsn := last_lsn s3 txn_id
    let s4 := begin_txn s3 txn_id
    let s5 := { s4 with txn_table := Table.set s4.txn_table txn_id ⟨some .in_progress, some lsn⟩ }
    { s5 with log := s5.log ++ [.update lsn txn_id page_id before value prev_lsn] }

/-- Embeds `aries.process_commit`. -/
def process_commit (s : State) (txn_id : String) : State :=
  let commit_lsn := s.log.length
  let end_lsn := commit_lsn + 1
  let prev_lsn := last_lsn s txn_id
  let s1 := { s with log := s.log ++
    [.commit commit_lsn txn_id prev_lsn, .endE end_lsn txn_id (some commit_lsn)] }
  let s2 := flush_log s1 (end_lsn : Int)
  { s2 with txn_table := Table.del s2.txn_table txn_id }

/-- Embeds `aries.process_checkpoint`. -/
def process_checkpoint (s : State) : State :=
  { s with log := s.log ++ [.checkpoint s.log.length s.dirty_page_table s.txn_table] }

/-- Embeds `aries.process_flush`. -/
def process_flush (s : State) (page_id : String) : State :=
  match page_lsn s page_id with
  | none =>
    if (Table.find s.dirty_page_table page_id).isSome then { s with assert_failed := true }
    else s
  | some plsn =>
    let s1 := flush_log s plsn
    let s2 := flush s1 page_id
    { s2 with dirty_page_table := Table.del s2.dirty_page_table page_id }

/-- One step of `aries.forward_process`: dispatch on the operation and
count it as processed. -/
def process_op (s : State) (op : Op) : State :=
  let s1 := match op with
    | .write t p v => process_write s t p v
    | .commit t => process_commit s t
    | .checkpoint => process_checkpoint s
    | .flush p => process_flush s p
  { s1 with num_ops_processed := s1.num_ops_processed + 1 }

/-- Embeds the snapshot list built by `aries.forward_process`: one state
per processed operation. -/
def forwardSnaps (s : State) : List Op → List State
  | [] => []
  | op :: rest =>
    let s1 := process_op s op
    s1 :: forwardSnaps s1 rest

/-- Embeds `aries.crash`. -/
def crash (s : State) : State :=
  { s with phase := .crashed
           log := s.log.take s.num_flushed
           dirty_page_table := []
           txn_table := []
           buffer_pool := [] }

/-- Embeds `aries.analysis_update`. -/
def analysis_update (s : State) (lsn : Nat) (txn_id page_id : String) : State :=
  let s1 := dirty s page_id lsn
  let s2 := begin_txn s1 txn_id
  set_last_lsn s2 txn_id lsn

/-- Embeds `aries.analysis_commit`: both fields of the (present after
`begin_txn`) entry are overwritten. -/
def analysis_commit (s : State) (lsn : Nat) (txn_id : String) : State :=
  let s1 := begin_txn s txn_id
  { s1 with txn_table := Table.set s1.txn_table txn_id ⟨some .committed, some lsn⟩ }

/-- Embeds `aries.analysis_end`. -/
def analysis_end (s : State) (txn_id : String) : State :=
  { s with txn_table := Table.del s.txn_table txn_id }

/-- Embeds `aries.analysis_checkpoint`: assert that the volatile
structures are empty, then load the stored tables. -/
def analysis_checkpoint (s : State) (dpt : Table DirtyPageTableEntry)
    (tt : Table TxnTableEntry) : State :=
  let cleared := is_object_empty s.dirty_page_table && is_object_empty s.txn_table &&
    is_object_empty s.buffer_pool
  let s1 := if cleared then s else { s with assert_failed := true }
  { s1 with dirty_page_table := dpt, txn_table := tt }

/-- Analysis-phase dispatch on one log entry (`aries.analysis`, loop
body).  A CLR fails the source's `console.assert` and the scan continues
with the state otherwise untouched. -/
def analysis_entry (s : State) : Entry → State
  | .update lsn t p _ _ _ => analysis_update s lsn t p
  | .commit lsn t _ => analysis_commit s lsn t
  | .endE _ t _ => analysis_end s t
  | .clr .. => { s with assert_failed := true }
  | .checkpoint _ dpt tt => analysis_checkpoint s dpt tt

/-- Advances the scan-position marker by one (`state.log_position += 1`). -/
def bump_pos (s : State) : State := { s with log_position := s.log_position.map (· + 1) }

/-- Snapshots pushed by the analysis scan loop, one per log entry. -/
def analysisSteps (s : State) : List Entry → List State
  | [] => []
  | e :: rest =>
    let s1 := bump_pos (analysis_entry s e)
    s1 :: analysisSteps s1 rest

/-- Reclassification after the scan: every in-progress transaction is
marked aborted (`aries.analysis`, final loop). -/
def markAborted (t : Table TxnTableEntry) : Table TxnTableEntry :=
  t.map (fun kv =>
    if kv.2.txn_status = some .in_progress then (kv.1, { kv.2 with txn_status := some .aborted })
    else kv)

/-- Embeds `aries.analysis`: the snapshots it pushes, given the state it
reads from the end of the history. -/
def analysisSnaps (s0 : State) : List State :=
  let start := latest_checkpoint_lsn s0
  let s := { s0 with phase := .analysis, log_position := some start }
  let steps := analysisSteps s (s.log.drop start)
  let sEnd := steps.getLastD s
  steps ++ [{ sEnd with txn_table := markAborted sEnd.txn_table }]

/-- Embeds `aries.redo_update`, including the three skip conditions.  When
the page is missing from disk at condition 3 the source raises a
`TypeError`; we set the flag (unreachable in `simulate`). -/
def redo_update (s : State) (lsn : Nat) (page_id after : String) : State :=
  match Table.find s.dirty_page_table page_id with
  | none => s
  | some d =>
    if lsn < d.rec_lsn then s
    else
      match Table.find s.disk page_id with
      | none => { s with assert_failed := true }
      | some dpg =>
        if (lsn : Int) ≤ dpg.page_lsn then s
        else
          let s1 := pin s page_id
          match Table.find s1.buffer_pool page_id with
          | none => { s1 with assert_failed := true }
          | some _ =>
            { s1 with buffer_pool := Table.set s1.buffer_pool page_id ⟨(lsn : Int), after⟩ }

/-- Redo-phase dispatch on one log entry (`aries.redo`, loop body):
commits, ends and checkpoints are never redone; a CLR fails the assert. -/
def redo_entry (s : State) : Entry → State
  | .update lsn _ p _ a _ => redo_update s lsn p a
  | .clr .. => { s with assert_failed := true }
  | _ => s

/-- Snapshots pushed by the redo scan loop, one per log entry. -/
def redoSteps (s : State) : List Entry → List State
  | [] => []
  | e :: rest =>
    let s1 := bump_pos (redo_entry s e)
    s1 :: redoSteps s1 rest

/-- Embeds `aries.redo`: when the dirty page table is empty the function
returns before pushing anything, so the locally mutated state (with phase
already set to Redo) is discarded and no snapshot is produced. -/
def redoSnaps (s0 : State) : List State :=
  match min_rec_lsn s0 with
  | none => []
  | some start =>
    let s := { s0 with phase := .redo, log_position := some start }
    redoSteps s (s.log.drop start)

/-- Javascript string comparison (code-unit order) on character lists. -/
def charListLt : List Char → List Char → Bool
  | [], [] => false
  | [], _ :: _ => true
  | _ :: _, [] => false
  | a :: as, b :: bs => if a = b then charListLt as bs else decide (a < b)

/-- Comparison used by Javascript's default `Array.prototype.sort()` on
numbers: compare their decimal string representations. -/
def jsNumLt (a b : Nat) : Bool := charListLt (Nat.repr a).toList (Nat.repr b).toList

/-- Stable insertion into a `jsNumLt`-ascending list. -/
def jsSortInsert (x : Nat) : List Nat → List Nat
  | [] => [x]
  | y :: ys => if jsNumLt x y then x :: y :: ys else y :: jsSortInsert x ys

/-- Embeds `losers.sort()`: Javascript's default sort, i.e. ascending in
the decimal-string order of the numbers. -/
def jsSort : List Nat → List Nat
  | [] => []
  | x :: xs => jsSortInsert x (jsSort xs)

/-- Converts an `Option Nat` to the JS value stored in a dynamically typed
field (a number, or `undefined`). -/
def jsOfOptNat : Option Nat → JSVal
  | none => .undef
  | some n => .num n

/-- Loser-LSN collection at the start of `aries.undo`: the lastLSN of
every transaction in the transaction table (during recovery every entry
has a defined lastLSN; on an entry without one the source would push
`undefined`). -/
def collect_losers (t : Table TxnTableEntry) : List Nat :=
  t.filterMap (fun kv => kv.2.last_lsn)

/-- The CLR append of one undo iteration.  Note that the source builds the
CLR as `aries.Log.CLR(clr_lsn, txn, page, undo_next_lsn, after, prev_lsn)`
while the constructor's parameters are `(lsn, txn_id, page_id, after,
undo_next_lsn, prev_lsn)`: the `after` field of the written CLR receives
the number-or-undefined `undo_next_lsn` (which equals the undone entry's
prevLSN), and the `undo_next_lsn` field receives the string `after` (which
equals the undone entry's before-image). -/
def undoClr (s : State) (txn_id page_id before : String) (prev_lsn : Option Nat) : State :=
  { s with log := s.log ++ [Entry.clr s.log.length txn_id page_id (jsOfOptNat prev_lsn)
      (JSVal.str before) (last_lsn s txn_id)] }

/-- The buffer write of one undo iteration:
`state.buffer_pool[page_id] = {page_lsn: clr_lsn, value: after}`.  When the
page is not buffered the source raises a `TypeError`; every call follows a
`pin`, so that case only sets the flag here. -/
def undoApply (s : State) (page_id value : String) (clr_lsn : Nat) : State :=
  match Table.find s.buffer_pool page_id with
  | some _ => { s with buffer_pool := Table.set s.buffer_pool page_id ⟨(clr_lsn : Int), value⟩ }
  | none => { s with assert_failed := true }

/-- The body of one iteration of the `while` loop of `aries.undo` once the
popped entry has been matched as an update: write the CLR, pin and update
the page, set the transaction's lastLSN to the CLR's LSN, and either queue
the entry's prevLSN or (when it is `undefined`) write the end record and
drop the transaction from the table.  Finally `state.log_position` is set
to the undone entry's LSN. -/
def undoStep (s : State) (rest : List Nat) (elsn : Nat)
    (txn_id page_id before : String) (prev_lsn : Option Nat) : State × List Nat :=
  let clr_lsn := s.log.length
  let s3 := undoApply (pin (undoClr s txn_id page_id before prev_lsn) page_id) page_id
    before clr_lsn
  let s4 := set_last_lsn s3 txn_id clr_lsn
  let step := match prev_lsn with
    | some p => (s4, rest ++ [p])
    | none =>
      ({ s4 with log := s4.log ++ [Entry.endE s4.log.length txn_id (some clr_lsn)]
                 txn_table := Table.del s4.txn_table txn_id }, rest)
  ({ step.1 with log_position := some elsn }, step.2)

/-- Embeds the `while` loop of `aries.undo`.  `fuel` bounds the number of
iterations; `simulate` supplies enough fuel for the loop to run to
completion (see `loser_measure`).  Each iteration sorts the loser LSNs
with Javascript's default (string-order) sort and pops the last element.
The popped entry is required to be an update: on any other entry the
source fails its `console.assert` and then crashes with a `TypeError`
while building the CLR, so the embedding sets the flag and stops (this is
unreachable in `simulate`). -/
def undoLoop : Nat → State → List Nat → List State × State × List Nat
  | 0, s, losers => ([], s, losers)
  | fuel + 1, s, losers =>
    if losers.isEmpty then ([], s, losers)
    else
      let sorted := jsSort losers
      let loser := sorted.getLastD 0
      match s.log[loser]? with
      | some (.update elsn txn_id page_id before _ prev_lsn) =>
        let r0 := undoStep s sorted.dropLast elsn txn_id page_id before prev_lsn
        let r := undoLoop fuel r0.1 r0.2
        (r0.1 :: r.1, r.2)
      | _ => ([], { s with assert_failed := true }, losers)

/-- Fuel measure for the undo loop: each iteration removes one LSN `l`
from the multiset and inserts at most one strictly smaller LSN, so the
sum of `l + 1` strictly decreases. -/
def loser_measure (losers : List Nat) : Nat := losers.foldr (fun l a => l + 1 + a) 0

/-- Embeds `aries.undo`: the snapshots it pushes (one per undone entry
plus the final completion snapshot). -/
def undoSnaps (s0 : State) : List State :=
  let s := { s0 with phase := .undo }
  let losers := collect_losers s.txn_table
  let r := undoLoop (loser_measure losers + 1) s losers
  r.1 ++ [r.2.1]

/-- Embeds `aries.simulate`: the full snapshot history. -/
def simulate (ops : List Op) : List State :=
  let s0 := initState ops
  let fwd := forwardSnaps s0 ops
  let sC := crash (fwd.getLastD s0)
  let anl := analysisSnaps sC
  let sA := anl.getLastD sC
  let rdo := redoSnaps sA
  let sR := rdo.getLastD sA
  s0 :: (fwd ++ sC :: (anl ++ rdo ++ undoSnaps sR))

/-- Final forward-processing state of a run (what `aries.crash` is applied
to). -/
def forwardFinal (ops : List Op) : State :=
  (forwardSnaps (initState ops) ops).getLastD (initState ops)

/-- The crashed state of a run. -/
def crashState (ops : List Op) : State := crash (forwardFinal ops)

/-- The state after the analysis phase of a run. -/
def analysisFinal (ops : List Op) : State :=
  (analysisSnaps (crashState ops)).getLastD (crashState ops)

/-- The state after one redo pass over an arbitrary state. -/
def redoFinal (s : State) : State := (redoSnaps s).getLastD s

/-- The state after the redo phase of a run. -/
def redoFinalOf (ops : List Op) : State := redoFinal (analysisFinal ops)

/-- The last snapshot of a run: the state in which the undo phase
terminates. -/
def simulateFinal (ops : List Op) : State :=
  (undoSnaps (redoFinalOf ops)).getLastD (initState ops)

/-! Invariant vocabulary used in the proofs below. -/

/-- Position `L` of `log` holds an update entry of transaction `T`. -/
def UpdAt (log : List Entry) (L : Nat) (T : String) : Prop :=
  ∃ l pid b a pr, log[L]? = some (Entry.update l T pid b a pr)

/-- Position `L` of `log` holds a commit entry of transaction `T`. -/
def CommitAt (log : List Entry) (L : Nat) (T : String) : Prop :=
  ∃ l pr, log[L]? = some (Entry.commit l T pr)

/-- Every log entry's `lsn` field equals its index (spec §3: LSNs are
dense integers equal to the index of insertion). -/
def LsnIdx (log : List Entry) : Prop := ∀ (i : Nat) (e : Entry), log[i]? = some e → e.lsn = i

/-- The `prev_lsn` of an update entry points to a strictly earlier update
entry of the same transaction (or is `none`). -/
def UpdChain (log : List Entry) : Prop :=
  ∀ (i : Nat) l T pid b a p, log[i]? = some (Entry.update l T pid b a (some p)) →
    p < i ∧ UpdAt log p T

/-- Every transaction-table entry's lastLSN points to an update entry of
that transaction inside the log. -/
def TblUpd (log : List Entry) (t : Table TxnTableEntry) : Prop :=
  ∀ T e, Table.find t T = some e →
    ∃ L, e.last_lsn = some L ∧ L < log.length ∧ UpdAt log L T

/-- Every commit entry is immediately followed by its matching end entry,
and the durable count covers both. -/
def CommitEnds (log : List Entry) (nf : Nat) : Prop :=
  ∀ (i : Nat) l T pr, log[i]? = some (Entry.commit l T pr) →
    log[i + 1]? = some (Entry.endE (i + 1) T (some i)) ∧ i + 2 ≤ nf

/-- Every checkpoint entry's stored transaction table has distinct keys
and points to update entries strictly before the checkpoint. -/
def CkptTbl (log : List Entry) : Prop :=
  ∀ (i : Nat) l dpt tt, log[i]? = some (Entry.checkpoint l dpt tt) →
    (Table.keys tt).Nodup ∧ ∀ T e, Table.find tt T = some e →
      ∃ L, e.last_lsn = some L ∧ L < i ∧ UpdAt log L T

/-- Invariant of normal (forward) processing. -/
def FwdInv (s : State) : Prop :=
  LsnIdx s.log ∧ UpdChain s.log ∧ TblUpd s.log s.txn_table ∧
    CommitEnds s.log s.num_flushed ∧ CkptTbl s.log ∧ (Table.keys s.txn_table).Nodup

/-- Invariant of the analysis scan when the next entry to be processed is
at position `j`: every table entry points to an update of its transaction,
or to a commit whose matching end entry has not been scanned yet. -/
def AnaInv (log : List Entry) (j : Nat) (t : Table TxnTableEntry) : Prop :=
  (Table.keys t).Nodup ∧ ∀ T e, Table.find t T = some e →
    ∃ L, e.last_lsn = some L ∧ L < log.length ∧
      (UpdAt log L T ∨ (CommitAt log L T ∧ j ≤ L + 1))

/-- Post-analysis shape of the transaction table: distinct keys, and every
entry's lastLSN points to an update entry of its transaction. -/
def PostTbl (log : List Entry) (t : Table TxnTableEntry) : Prop :=
  (Table.keys t).Nodup ∧ ∀ T e, Table.find t T = some e →
    ∃ L, e.last_lsn = some L ∧ L < log.length ∧ UpdAt log L T

/-- Loop invariant of the undo phase: the pending loser LSNs (as a
multiset) are in bijection with the transactions still present in the
transaction table, each pending LSN pointing to an update entry of its
transaction inside the pre-undo log `log0`. -/
def UndoInv (log0 : List Entry) (t : Table TxnTableEntry) (losers : List Nat)
    (pairs : List (String × Nat)) : Prop :=
  (Table.keys t).Nodup ∧
    ((Table.keys t : Multiset String) = (pairs.map Prod.fst : List String)) ∧
    ((losers : Multiset Nat) = (pairs.map Prod.snd : List Nat)) ∧
    ∀ pr ∈ pairs, pr.2 < log0.length ∧ UpdAt log0 pr.2 pr.1

/-! Definitions used to state the claims and their refutations. -/

/-- Transactions classified as losers by the analysis phase of a run:
those still present in the transaction table when analysis finishes (the
transactions the undo phase rolls back). -/
def isLoser (ops : List Op) (T : String) : Bool :=
  (Table.find (analysisFinal ops).txn_table T).isSome

/-- Values written (as after-images) by update log entries of loser
transactions, read off the final log of a run. -/
def loserWrites (ops : List Op) : List String :=
  (simulateFinal ops).log.filterMap (fun e =>
    match e with
    | .update _ T _ _ a _ => if isLoser ops T then some a else none
    | _ => none)

/-- Claim C3's second conjunct as a boolean: no page's buffer-pool value
in the final state equals a value written by a loser's update entry. -/
def noLoserEffect (ops : List Op) : Bool :=
  (simulateFinal ops).buffer_pool.all (fun kv => !(loserWrites ops).contains kv.2.value)

/-- Skip test of `aries.redo_update` in isolation: `true` iff the entry
would not be redone, i.e. iff it is not an update, or one of the three
skip conditions holds (page absent from the dirty page table; recLSN
greater than the entry's LSN; on-disk pageLSN at least the entry's LSN). -/
def redoSkip (s : State) : Entry → Bool
  | .update lsn _ p _ _ _ =>
    match Table.find s.dirty_page_table p with
    | none => true
    | some d =>
      if lsn < d.rec_lsn then true
      else
        match Table.find s.disk p with
        | none => false
        | some dpg => decide ((lsn : Int) ≤ dpg.page_lsn)
  | _ => true

/-- Decision of the redo scan for an update entry: `true` iff the update
is reapplied.  It depends only on the dirty page table and the disk,
which the redo phase never modifies. -/
def redoDecision (dpt : Table DirtyPageTableEntry) (disk : Table Page) (lsn : Nat)
    (p : String) : Bool :=
  match Table.find dpt p with
  | none => false
  | some d =>
    if lsn < d.rec_lsn then false
    else
      match Table.find disk p with
      | none => false
      | some dpg => decide (dpg.page_lsn < (lsn : Int))

/-- Buffer-pool writes performed by a redo scan over the given entries. -/
def redoWrites (dpt : Table DirtyPageTableEntry) (disk : Table Page) :
    List Entry → List (String × Page)
  | [] => []
  | .update lsn _ p _ a _ :: rest =>
    if redoDecision dpt disk lsn p then (p, ⟨(lsn : Int), a⟩) :: redoWrites dpt disk rest
    else redoWrites dpt disk rest
  | _ :: rest => redoWrites dpt disk rest

/-- Sequential application of buffer-pool writes. -/
def applyWrites (m : Table Page) : List (String × Page) → Table Page
  | [] => m
  | w :: ws => applyWrites (Table.set m w.1 w.2) ws

/-- Whether a single entry is a compensation record. -/
def isClrE : Entry → Bool
  | .clr .. => true
  | _ => false

/-- Whether a list of entries contains a compensation record. -/
def hasClr (es : List Entry) : Bool := es.any isClrE

/-- Whether an entry, if it is an update, names a page present on the
given disk. -/
def updEntryOnDisk (disk : Table Page) : Entry → Bool
  | .update _ _ p _ _ _ => (Table.find disk p).isSome
  | _ => true

/-- Every update entry of the log names a page that is present on disk
(always true in `simulate`, where `aries.init` provisions every page
referenced by the operations). -/
def UpdPagesOnDisk (s : State) : Prop :=
  ∀ e ∈ s.log, updEntryOnDisk s.disk e = true

/-- Operation list exhibiting the undo-ordering of claim C1: transaction 1
has lastLSN 2, transaction 2 has lastLSN 10, both are losers, and the
whole log is durable. -/
def c1ops : List Op :=
  [.write "1" "A" "a0", .write "1" "A" "a1", .write "1" "A" "a2",
   .write "2" "B" "b0", .write "2" "B" "b1", .write "2" "B" "b2", .write "2" "B" "b3",
   .write "2" "B" "b4", .write "2" "B" "b5", .write "2" "B" "b6", .write "2" "B" "b7",
   .flush "B"]

/-- Operation list exhibiting the CLR field contents of claim C2:
transaction 2 is a loser with one durable update. -/
def c2ops : List Op := [.write "1" "A" "x", .write "2" "B" "y", .commit "1"]

/-- Operation list for claim C3's counterexample: committed transaction 2
and loser transaction 1 both write the value `x` to page A. -/
def c3ops : List Op := [.write "2" "A" "x", .write "1" "A" "x", .commit "2"]

/-- Operation list for claim C6's counterexample: one committed write that
is redone from the log because page A never reached disk. -/
def c6ops : List Op := [.write "1" "A" "x", .commit "1"]

/-- Crashed state whose durable log starts with a compensation record,
used to exercise the analysis engine's invariant-violation handling. -/
def clrState : State :=
  { State.new [] with
      phase := .crashed
      log := [.clr 0 "9" "P" .undef .undef none, .update 1 "7" "P" "u" "v" none]
      num_flushed := 2
      disk := [("P", ⟨-1, "⊥"⟩)] }

/-- Concrete state with page A buffered, used as the witness input for
claim C4. -/
def walState : State :=
  { State.new [] with buffer_pool := [("A", ⟨3, "v"⟩)], num_flushed := 1 }

/-- Concrete state with transaction 1 active, used as the witness input
for claim C5. -/
def commitState : State :=
  { State.new [] with
      log := [.update 0 "1" "A" "⊥" "x" none]
      txn_table := [("1", ⟨some .in_progress, some 0⟩)] }

/-- Concrete state with a two-entry log of which one entry is durable,
used as the witness input for claim C7. -/
def crashedInput : State :=
  { State.new [] with
      log := [.update 0 "1" "A" "⊥" "x" none, .commit 1 "1" (some 0)]
      num_flushed := 1
      txn_table := [("1", ⟨some .in_progress, some 0⟩)]
      dirty_page_table := [("A", ⟨0⟩)]
      buffer_pool := [("A", ⟨0, "x"⟩)]
      disk := [("A", ⟨-1, "⊥"⟩)] }

/-- Concrete state with a dirty page and a one-entry log, used as the
witness input for claim C9's non-empty branch. -/
def dirtyState : State :=
  { State.new [] with
      log := [.update 0 "1" "A" "⊥" "x" none]
      dirty_page_table := [("A", ⟨0⟩)]
      disk := [("A", ⟨-1, "⊥"⟩)] }

/-! Basic lemmas about `Table`. -/

theorem Table.find_set_self {α : Type} (t : Table α) (k : String) (v : α) :
    Table.find (Table.set t k v) k = some v := by
  induction t with
  | nil => simp [Table.set, Table.find]
  | cons kv t ih =>
    by_cases h : k = kv.1
    · simp [Table.set, h, Table.find]
    · simp [Table.set, h, Table.find, ih]

theorem Table.find_set_ne {α : Type} (t : Table α) (k k' : String) (v : α) (h : k' ≠ k) :
    Table.find (Table.set t k v) k' = Table.find t k' := by
  induction t with
  | nil => simp [Table.set, Table.find, h]
  | cons kv t ih =>
    by_cases hk : k = kv.1
    · subst hk
      simp [Table.set, Table.find, h, ih]
    · by_cases hk' : k' = kv.1
      · simp [Table.set, hk, Table.find, hk']
      · simp [Table.set, hk, Table.find, hk', ih]

theorem Table.find_del_self {α : Type} (t : Table α) (k : String) :
    Table.find (Table.del t k) k = none := by
  induction t with
  | nil => simp [Table.del, Table.find]
  | cons kv t ih =>
    by_cases h : kv.1 = k
    · simp [Table.del, h, ih]
    · have : ¬ k = kv.1 := fun hk => h hk.symm
      simp [Table.del, h, Table.find, this, ih]

theorem Table.find_del_ne {α : Type} (t : Table α) (k k' : String) (h : k' ≠ k) :
    Table.find (Table.del t k) k' = Table.find t k' := by
  induction t with
  | nil => simp [Table.del]
  | cons kv t ih =>
    by_cases hk : kv.1 = k
    · subst hk
      have : ¬ k' = kv.1 := h
      simp [Table.del, Table.find, this, ih]
    · by_cases hk' : k' = kv.1
      · simp [Table.del, hk, Table.find, hk']
      · simp [Table.del, hk, Table.find, hk', ih]

theorem Table.del_of_find_none {α : Type} (t : Table α) (k : String)
    (h : Table.find t k = none) : Table.del t k = t := by
  induction t with
  | nil => simp [Table.del]
  | cons kv t ih =>
    by_cases hk : k = kv.1
    · simp [Table.find, hk] at h
    · have hk1 : ¬ kv.1 = k := fun hx => hk hx.symm
      simp [Table.find, hk] at h
      simp [Table.del, hk1, ih h]

theorem Table.keys_cons {α : Type} (kv : String × α) (t : Table α) :
    Table.keys (kv :: t) = kv.1 :: Table.keys t := rfl

theorem Table.mem_keys_of_mem {α : Type} {t : Table α} {k : String} {v : α}
    (h : (k, v) ∈ t) : k ∈ Table.keys t :=
  List.mem_map_of_mem Prod.fst h

theorem Table.find_isSome_of_mem_keys {α : Type} (t : Table α) (k : String)
    (h : k ∈ Table.keys t) : (Table.find t k).isSome = true := by
  induction t with
  | nil => simp [Table.keys] at h
  | cons kv t ih =>
    rw [Table.keys_cons] at h
    rcases List.mem_cons.1 h with h1 | h1
    · simp [Table.find, h1]
    · by_cases hk : k = kv.1
      · simp [Table.find, hk]
      · simp [Table.find, hk]
        exact ih h1

theorem Table.mem_keys_of_find_isSome {α : Type} (t : Table α) (k : String)
    (h : (Table.find t k).isSome = true) : k ∈ Table.keys t := by
  induction t with
  | nil => simp [Table.find] at h
  | cons kv t ih =>
    rw [Table.keys_cons]
    by_cases hk : k = kv.1
    · exact List.mem_cons.2 (Or.inl hk)
    · simp [Table.find, hk] at h
      exact List.mem_cons.2 (Or.inr (ih h))

theorem Table.find_eq_some_of_mem {α : Type} (t : Table α) (k : String) (v : α)
    (hnd : (Table.keys t).Nodup) (h : (k, v) ∈ t) : Table.find t k = some v := by
  induction t with
  | nil => simp at h
  | cons kv t ih =>
    rw [Table.keys_cons, List.nodup_cons] at hnd
    rcases List.mem_cons.1 h with h1 | h1
    · rw [← h1]
      simp [Table.find]
    · have hk : ¬ k = kv.1 := by
        intro hk
        exact hnd.1 (hk ▸ Table.mem_keys_of_mem h1)
      simp [Table.find, hk]
      exact ih hnd.2 h1

theorem Table.keys_set_of_mem {α : Type} (t : Table α) (k : String) (v : α)
    (h : k ∈ Table.keys t) : Table.keys (Table.set t k v) = Table.keys t := by
  induction t with
  | nil => simp [Table.keys] at h
  | cons kv t ih =>
    by_cases hk : k = kv.1
    · simp [Table.set, hk, Table.keys_cons]
    · rw [Table.keys_cons] at h
      rcases List.mem_cons.1 h with h1 | h1
      · exact absurd h1 hk
      · simp [Table.set, hk, Table.keys_cons, ih h1]

theorem Table.keys_set_of_not_mem {α : Type} (t : Table α) (k : String) (v : α)
    (h : ¬ k ∈ Table.keys t) : Table.keys (Table.set t k v) = Table.keys t ++ [k] := by
  induction t with
  | nil => simp [Table.set, Table.keys]
  | cons kv t ih =>
    rw [Table.keys_cons] at h
    have h1 : ¬ k = kv.1 := fun hx => h (List.mem_cons.2 (Or.inl hx))
    have h2 : ¬ k ∈ Table.keys t := fun hx => h (List.mem_cons.2 (Or.inr hx))
    simp [Table.set, h1, Table.keys_cons, ih h2]

theorem Table.find_eq_none_of_not_mem {α : Type} (t : Table α) (k : String)
    (h : ¬ k ∈ Table.keys t) : Table.find t k = none := by
  cases hf : Table.find t k with
  | none => rfl
  | some v => exact absurd (Table.mem_keys_of_find_isSome t k (by simp [hf])) h

theorem Table.keys_del_eq_erase {α : Type} (t : Table α) (k : String)
    (hnd : (Table.keys t).Nodup) :
    Table.keys (Table.del t k) = (Table.keys t).erase k := by
  induction t with
  | nil => simp [Table.del, Table.keys]
  | cons kv t ih =>
    rw [Table.keys_cons, List.nodup_cons] at hnd
    obtain ⟨hk1, hk2⟩ := hnd
    by_cases h : kv.1 = k
    · subst h
      have hdel : Table.del t kv.1 = t :=
        Table.del_of_find_none t kv.1 (Table.find_eq_none_of_not_mem t kv.1 hk1)
      simp [Table.del, hdel, Table.keys_cons, List.erase_cons_head]
    · have hbeq : (kv.1 == k) = false := by simpa using h
      simp [Table.del, h, Table.keys_cons, List.erase_cons, hbeq, ih hk2]

/-! Frame lemmas for the state helpers. -/

theorem pin_frame (s : State) (p : String) :
    (pin s p).log = s.log ∧ (pin s p).txn_table = s.txn_table ∧
      (pin s p).num_flushed = s.num_flushed ∧
      (pin s p).dirty_page_table = s.dirty_page_table ∧ (pin s p).disk = s.disk ∧
      (pin s p).phase = s.phase ∧ (pin s p).log_position = s.log_position := by
  unfold pin
  cases Table.find s.disk p with
  | none => exact ⟨rfl, rfl, rfl, rfl, rfl, rfl, rfl⟩
  | some pg =>
    by_cases h : (Table.find s.buffer_pool p).isSome <;> simp [h]

theorem flush_num_flushed (s : State) (p : String) :
    (flush s p).num_flushed = s.num_flushed := by
  unfold flush
  by_cases h : (Table.find s.disk p).isSome <;>
    simp [h] <;>
    cases Table.find s.buffer_pool p <;> simp

theorem flush_log_num (s : State) (lsn : Int) :
    (flush_log s lsn).num_flushed = max s.num_flushed (lsn + 1).toNat := rfl

/-! Claim C4 (WAL ordering on Flush). -/

/-- C4: for every Flush(P) processed while page P is in the buffer pool,
the durable count immediately afterwards is at least P's buffer pageLSN at
the time of the flush, plus one: the log is forced up to and including the
page's pageLSN before the page is copied to disk. -/
theorem C4_flush_forces_log (s : State) (p : String) (pg : Page)
    (h : Table.find s.buffer_pool p = some pg) :
    ((process_flush s p).num_flushed : Int) ≥ pg.page_lsn + 1 := by
  have hpl : page_lsn s p = some pg.page_lsn := by simp [page_lsn, h]
  unfold process_flush
  rw [hpl]
  simp
  rw [flush_num_flushed, flush_log_num]
  calc pg.page_lsn + 1 ≤ ((pg.page_lsn + 1).toNat : Int) := Int.self_le_toNat _
    _ ≤ (Nat.max s.num_flushed (pg.page_lsn + 1).toNat : Int) := by
        exact_mod_cast Nat.le_max_right _ _

/-- C4 witness: a concrete flush of the buffered page A with pageLSN 3
leaves at least 4 entries durable. -/
theorem C4_witness :
    Table.find walState.buffer_pool "A" = some ⟨3, "v"⟩ ∧
      ((process_flush walState "A").num_flushed : Int) ≥ (3 : Int) + 1 :=
  ⟨rfl, C4_flush_forces_log walState "A" ⟨3, "v"⟩ rfl⟩

/-! Claim C5 (force-at-commit). -/

/-- C5: processing Commit(T) for an active transaction T appends a Commit
entry whose prev_lsn is T's previous lastLSN, then an End entry whose
prev_lsn is the Commit's LSN, raises the durable count to cover the End
entry (durable count at least the End entry's LSN plus one), and removes T
from the transaction table. -/
theorem C5_commit_forces (s : State) (T : String) (st : Option TxnStatus) (L : Nat)
    (h : Table.find s.txn_table T = some ⟨st, some L⟩) :
    (process_commit s T).log = s.log ++
        [.commit s.log.length T (some L), .endE (s.log.length + 1) T (some s.log.length)] ∧
      (process_commit s T).num_flushed ≥ (s.log.length + 1) + 1 ∧
      Table.find (process_commit s T).txn_table T = none := by
  have hll : last_lsn s T = some L := by simp [last_lsn, h]
  refine ⟨?_, ?_, ?_⟩
  · simp [process_commit, flush_log, hll]
  · show max s.num_flushed _ ≥ _
    omega
  · exact Table.find_del_self _ _

/-- C5 witness: committing active transaction 1 of `commitState`. -/
theorem C5_witness :
    Table.find commitState.txn_table "1" = some ⟨some .in_progress, some 0⟩ ∧
      ((process_commit commitState "1").log = commitState.log ++
          [.commit 1 "1" (some 0), .endE 2 "1" (some 1)] ∧
        (process_commit commitState "1").num_flushed ≥ 2 + 1 ∧
        Table.find (process_commit commitState "1").txn_table "1" = none) := by
  refine ⟨rfl, ?_⟩
  have := C5_commit_forces commitState "1" (some .in_progress) 0 rfl
  simpa [commitState, State.new] using this

/-! Claim C10 (commit of an unknown transaction). -/

/-- C10: processing Commit(T) when T is absent from the transaction table
still appends a Commit entry with prev_lsn none followed by an End entry,
raises the durable count to cover both, and leaves the transaction table
unchanged (no entry is created for T). -/
theorem C10_commit_absent (s : State) (T : String)
    (h : Table.find s.txn_table T = none) :
    (process_commit s T).log = s.log ++
        [.commit s.log.length T none, .endE (s.log.length + 1) T (some s.log.length)] ∧
      (process_commit s T).num_flushed ≥ s.log.length + 2 ∧
      (process_commit s T).txn_table = s.txn_table := by
  have hll : last_lsn s T = none := by simp [last_lsn, h]
  refine ⟨?_, ?_, ?_⟩
  · simp [process_commit, flush_log, hll]
  · show max s.num_flushed _ ≥ _
    omega
  · show Table.del s.txn_table T = s.txn_table
    exact Table.del_of_find_none _ _ h

/-- C10 witness: committing the never-seen transaction 9 in the empty
initial state. -/
theorem C10_witness :
    Table.find (State.new []).txn_table "9" = none ∧
      ((process_commit (State.new []) "9").log = (State.new []).log ++
          [.commit 0 "9" none, .endE 1 "9" (some 0)] ∧
        (process_commit (State.new []) "9").num_flushed ≥ 0 + 2 ∧
        (process_commit (State.new []) "9").txn_table = (State.new []).txn_table) := by
  refine ⟨rfl, ?_⟩
  have := C10_commit_absent (State.new []) "9" rfl
  simpa [State.new] using this

/-! Claim C7 (crash truncates to the durable prefix). -/

/-- C7: crashing truncates the log to exactly its durable prefix (entries
with LSN below the durable count are kept unchanged, in order, and every
kept entry has LSN below the durable count), empties the transaction
table, dirty page table and buffer pool, sets the phase to Crashed, and
leaves the disk and the durable count unchanged. -/
theorem C7_crash_spec (s : State) (h : LsnIdx s.log) :
    (crash s).log = s.log.take s.num_flushed ∧
      (∀ e ∈ (crash s).log, e.lsn < s.num_flushed) ∧
      (∀ (i : Nat) (e : Entry), s.log[i]? = some e → e.lsn < s.num_flushed →
        (crash s).log[i]? = some e) ∧
      (crash s).txn_table = [] ∧ (crash s).dirty_page_table = [] ∧
      (crash s).buffer_pool = [] ∧ (crash s).phase = .crashed ∧
      (crash s).disk = s.disk ∧ (crash s).num_flushed = s.num_flushed := by
  refine ⟨rfl, ?_, ?_, rfl, rfl, rfl, rfl, rfl, rfl⟩
  · intro e he
    have : e ∈ s.log.take s.num_flushed := he
    obtain ⟨i, hi, hget⟩ := List.mem_iff_getElem.1 this
    have hlen : i < s.num_flushed := lt_of_lt_of_le hi (by
      simp [List.length_take])
    have hi2 : (s.log.take s.num_flushed)[i]? = some e := by
      simp [List.getElem?_eq_getElem hi, hget]
    rw [List.getElem?_take_of_lt hlen] at hi2
    exact h i e hi2 ▸ hlen
  · intro i e hget hlsn
    have hidx : e.lsn = i := h i e hget
    show (s.log.take s.num_flushed)[i]? = some e
    rw [List.getElem?_take_of_lt (by omega)]
    exact hget

/-- C7 witness: crashing `crashedInput`, whose two-entry log has one
durable entry. -/
theorem C7_witness :
    ((crash crashedInput).log = crashedInput.log.take crashedInput.num_flushed ∧
      (∀ e ∈ (crash crashedInput).log, e.lsn < crashedInput.num_flushed) ∧
      (∀ (i : Nat) (e : Entry), crashedInput.log[i]? = some e →
        e.lsn < crashedInput.num_flushed → (crash crashedInput).log[i]? = some e) ∧
      (crash crashedInput).txn_table = [] ∧ (crash crashedInput).dirty_page_table = [] ∧
      (crash crashedInput).buffer_pool = [] ∧ (crash crashedInput).phase = .crashed ∧
      (crash crashedInput).disk = crashedInput.disk ∧
      (crash crashedInput).num_flushed = crashedInput.num_flushed) :=
  C7_crash_spec crashedInput (by
    intro i e hget
    match i, hget with
    | 0, hget => simp [crashedInput, State.new] at hget; rw [← hget]; rfl
    | 1, hget => simp [crashedInput, State.new] at hget; rw [← hget]; rfl
    | (n + 2), hget => simp [crashedInput, State.new] at hget)

/-! Frame lemmas for the redo phase. -/

theorem redo_update_frame (s : State) (lsn : Nat) (p a : String) :
    (redo_update s lsn p a).log = s.log ∧
      (redo_update s lsn p a).txn_table = s.txn_table ∧
      (redo_update s lsn p a).dirty_page_table = s.dirty_page_table ∧
      (redo_update s lsn p a).disk = s.disk ∧
      (redo_update s lsn p a).num_flushed = s.num_flushed ∧
      (redo_update s lsn p a).phase = s.phase ∧
      (redo_update s lsn p a).log_position = s.log_position := by
  unfold redo_update
  cases Table.find s.dirty_page_table p with
  | none => exact ⟨rfl, rfl, rfl, rfl, rfl, rfl, rfl⟩
  | some d =>
    by_cases h1 : lsn < d.rec_lsn
    · simp [h1]
    · simp [h1]
      cases Table.find s.disk p with
      | none => exact ⟨rfl, rfl, rfl, rfl, rfl, rfl, rfl⟩
      | some dpg =>
        by_cases h2 : (lsn : Int) ≤ dpg.page_lsn
        · simp [h2]
        · simp [h2]
          obtain ⟨f1, f2, f3, f4, f5, f6, f7⟩ := pin_frame s p
          cases Table.find (pin s p).buffer_pool p with
          | none => exact ⟨f1, f2, f4, f5, f3, f6, f7⟩
          | some pg => exact ⟨f1, f2, f4, f5, f3, f6, f7⟩

theorem redo_entry_frame (s : State) (e : Entry) :
    (redo_entry s e).log = s.log ∧
      (redo_entry s e).txn_table = s.txn_table ∧
      (redo_entry s e).dirty_page_table = s.dirty_page_table ∧
      (redo_entry s e).disk = s.disk ∧
      (redo_entry s e).num_flushed = s.num_flushed ∧
      (redo_entry s e).phase = s.phase ∧
      (redo_entry s e).log_position = s.log_position := by
  cases e with
  | update lsn T p b a pr =>
    exact redo_update_frame s lsn p a
  | commit lsn T pr => exact ⟨rfl, rfl, rfl, rfl, rfl, rfl, rfl⟩
  | endE lsn T pr => exact ⟨rfl, rfl, rfl, rfl, rfl, rfl, rfl⟩
  | clr lsn T p af un pr => exact ⟨rfl, rfl, rfl, rfl, rfl, rfl, rfl⟩
  | checkpoint lsn dpt tt => exact ⟨rfl, rfl, rfl, rfl, rfl, rfl, rfl⟩

theorem redoSteps_length (s : State) (es : List Entry) :
    (redoSteps s es).length = es.length := by
  induction es generalizing s with
  | nil => rfl
  | cons e rest ih => simp [redoSteps, ih]

theorem analysisSteps_length (s : State) (es : List Entry) :
    (analysisSteps s es).length = es.length := by
  induction es generalizing s with
  | nil => rfl
  | cons e rest ih => simp [analysisSteps, ih]

theorem min_rec_lsn_empty (s : State) (h : s.dirty_page_table = []) :
    min_rec_lsn s = none := by
  unfold min_rec_lsn
  rw [h]
  rfl

/-! Claim C9 (redo with an empty dirty page table, and the redo start
position). -/

/-- C9 (amended): when the dirty page table is empty, `aries.redo`
produces no snapshot at all — the locally mutated state whose phase was
set to Redo is discarded, so the state history is completely unchanged and
no state with phase Redo ever appears; otherwise the scan starts at the
minimum recLSN of the dirty page table: one snapshot is produced per log
entry from that position to the end of the log, and the first produced
snapshot's scan marker sits just past the minimum recLSN. -/
theorem C9_redo_empty_or_min (s : State) :
    (s.dirty_page_table = [] → redoSnaps s = []) ∧
      (∀ m : Nat, min_rec_lsn s = some m →
        (redoSnaps s).length = s.log.length - m ∧
        (m < s.log.length → ∃ st, (redoSnaps s).head? = some st ∧
          st.log_position = some (m + 1))) := by
  constructor
  · intro h
    unfold redoSnaps
    rw [min_rec_lsn_empty s h]
  · intro m hm
    unfold redoSnaps
    rw [hm]
    constructor
    · simp [redoSteps_length]
    · intro hlt
      cases hdrop : s.log.drop m with
      | nil =>
        have : s.log.length - m = 0 := by
          have := congrArg List.length hdrop
          simpa using this
        omega
      | cons e rest =>
        refine ⟨bump_pos (redo_entry { s with phase := .redo, log_position := some m } e), ?_, ?_⟩
        · show (redoSteps { s with phase := .redo, log_position := some m }
            (s.log.drop m)).head? = _
          rw [hdrop]
          rfl
        · have hframe := (redo_entry_frame { s with phase := .redo, log_position := some m } e).2.2.2.2.2.2
          simp [bump_pos, hframe]

/-- C9 witness: both branches of the theorem at concrete inputs: the empty
fresh state produces no redo snapshot, and `dirtyState` (minimum recLSN 0,
one log entry) produces one snapshot whose scan marker is 1. -/
theorem C9_witness :
    redoSnaps (State.new []) = [] ∧
      ((redoSnaps dirtyState).length = dirtyState.log.length - 0 ∧
        ∃ st, (redoSnaps dirtyState).head? = some st ∧ st.log_position = some 1) := by
  refine ⟨(C9_redo_empty_or_min (State.new [])).1 rfl, ?_⟩
  have h := (C9_redo_empty_or_min dirtyState).2 0 rfl
  exact ⟨h.1, h.2 (by decide)⟩

/-- C9 counterexample: the claim states that with an empty dirty page
table Redo changes nothing except that the phase is set to Redo.  On the
run of the empty operation list the post-analysis dirty page table is
empty, Redo pushes no snapshot, and no state of the whole history ever
has phase Redo: the phase is never set to Redo in any observable state. -/
theorem C9_counterexample :
    (analysisFinal []).dirty_page_table = [] ∧
      redoSnaps (analysisFinal []) = [] ∧
      ∀ st ∈ simulate [], st.phase ≠ Phase.redo := by
  refine ⟨rfl, rfl, ?_⟩
  decide

/-! Claim C8 (invariant violations and partial results). -/

/-- C8 (amended): the analysis scan never stops early: whatever the log
contains — compensation records included — analysis produces exactly one
snapshot per log entry from the scan start to the end of the log, plus
the final reclassification snapshot.  Invariant violations are recorded
through the failed `console.assert` (the `assert_failed` flag) while the
simulation continues. -/
theorem C8_analysis_never_stops (s : State) :
    (analysisSnaps s).length = s.log.length - latest_checkpoint_lsn s + 1 := by
  unfold analysisSnaps
  simp [analysisSteps_length]

/-- C8 counterexample: on a crashed state whose durable log holds a
compensation record followed by an update, analysis does not stop at the
CLR: it records the assertion failure in the very first snapshot and then
processes the following update (transaction 7 enters the transaction
table in the second snapshot), producing the full three-snapshot history
rather than signalling a fatal stop. -/
theorem C8_counterexample :
    (analysisSnaps clrState).length = 3 ∧
      ((analysisSnaps clrState)[0]?.map State.assert_failed) = some true ∧
      ((analysisSnaps clrState)[1]?.map (fun st => (Table.find st.txn_table "7").isSome)) =
        some true := by
  refine ⟨rfl, rfl, rfl⟩

/-! Claim C1 (undo ordering) evaluated at its failing input. -/

/-- C1 evaluated at the failing input: after running `c1ops` the loser set
at the start of undo is the pair of lastLSNs 2 and 10, yet the first undo
iteration undoes the entry at LSN 2 — not the largest pending LSN 10 —
because `losers.sort()` compares the decimal strings of the numbers and
"10" sorts before "2".  The snapshot markers list the undone LSNs in
order: 2 first, 10 only second, contradicting strict LSN-descending
order (and the source's own comment "pop the last (i.e. biggest) LSN"). -/
theorem C1_undo_order_at_code :
    collect_losers (redoFinalOf c1ops).txn_table = [2, 10] ∧
      jsSort [2, 10] = [10, 2] ∧
      (undoSnaps (redoFinalOf c1ops)).map State.log_position =
        [some 2, some 10, some 9, some 8, some 7, some 6, some 5, some 4, some 3,
         some 1, some 0, some 0] :=
  ⟨rfl, rfl, rfl⟩

/-! Claim C2 (CLR field contents) evaluated at its failing input. -/

/-- C2 evaluated at the failing input: running `c2ops`, the undone loser
entry is the update at LSN 1 with before-image `⊥` and prev_lsn none, but
the compensation record appended at LSN 4 carries `after = undefined`
(the undone entry's prev_lsn) and `undo_next_lsn = "⊥"` (the undone
entry's before-image): the call site `aries.Log.CLR(clr_lsn, txn, page,
undo_next_lsn, after, prev_lsn)` transposes the constructor's `after` and
`undo_next_lsn` parameters, so neither field holds what the claim says. -/
theorem C2_clr_fields_swapped :
    (simulateFinal c2ops).log[1]? = some (.update 1 "2" "B" "⊥" "y" none) ∧
      (simulateFinal c2ops).log[4]? =
        some (.clr 4 "2" "B" JSVal.undef (JSVal.str "⊥") (some 1)) :=
  ⟨rfl, rfl⟩

/-! Claim C3: counterexample to the buffer-value conjunct. -/

/-- C3 counterexample: on `c3ops` the transaction table is empty after
undo, but page A's final buffer value "x" is exactly a value written by an
update entry of loser transaction 1 (its update at LSN 1 wrote "x", the
same value the committed transaction 2 wrote, which undo correctly
restored).  The claim's conjunct "no page's buffer-pool value equals a
value written by an Update log entry of a loser" is therefore false. -/
theorem C3_counterexample :
    (simulateFinal c3ops).txn_table = [] ∧
      Table.find (simulateFinal c3ops).buffer_pool "A" = some ⟨4, "x"⟩ ∧
      isLoser c3ops "1" = true ∧
      (simulateFinal c3ops).log[1]? = some (.update 1 "1" "A" "x" "x" none) ∧
      noLoserEffect c3ops = false :=
  ⟨rfl, rfl, rfl, rfl, rfl⟩

/-! Claim C6: counterexample to the skip-condition conjunct. -/

/-- C6 counterexample: after the first redo pass of the run of `c6ops`,
the update at LSN 0 is scanned again by a second pass (the minimum recLSN
is still 0) and satisfies none of the three skip conditions — page A is
still in the dirty page table with recLSN 0 and the on-disk pageLSN is
still -1, because redo modifies neither the dirty page table nor the
disk — so the second pass reapplies it rather than skipping it. -/
theorem C6_counterexample :
    min_rec_lsn (redoFinalOf c6ops) = some 0 ∧
      (redoFinalOf c6ops).log[0]? = some (.update 0 "1" "A" "⊥" "x" none) ∧
      redoSkip (redoFinalOf c6ops) (.update 0 "1" "A" "⊥" "x" none) = false ∧
      redoDecision (redoFinalOf c6ops).dirty_page_table (redoFinalOf c6ops).disk 0 "A" =
        true :=
  ⟨rfl, rfl, rfl, rfl⟩

/-! Write algebra on tables: applying the same write list twice is the
same as applying it once. -/

theorem Table.set_set_same {α : Type} (m : Table α) (k : String) (v v2 : α) :
    Table.set (Table.set m k v) k v2 = Table.set m k v2 := by
  induction m with
  | nil => simp [Table.set]
  | cons kv t ih =>
    by_cases h : k = kv.1
    · simp [Table.set, h]
    · simp [Table.set, h, ih]

theorem Table.set_comm_of_mem {α : Type} (m : Table α) (k k2 : String) (v v2 : α)
    (hk : k ∈ Table.keys m) (h : k ≠ k2) :
    Table.set (Table.set m k v) k2 v2 = Table.set (Table.set m k2 v2) k v := by
  induction m with
  | nil => simp [Table.keys] at hk
  | cons kv t ih =>
    by_cases h1 : k = kv.1
    · have h2 : ¬ k2 = kv.1 := fun hx => h (by rw [h1, ← hx])
      have h3 : ¬ k2 = k := fun hx => h hx.symm
      simp [Table.set, h1, h2, h3]
    · rw [Table.keys_cons] at hk
      rcases List.mem_cons.1 hk with hc | hc
      · exact absurd hc h1
      · by_cases h2 : k2 = kv.1
        · simp [Table.set, h1, h2]
        · simp [Table.set, h1, h2, ih hc]

theorem Table.set_of_find_eq {α : Type} (m : Table α) (k : String) (v : α)
    (h : Table.find m k = some v) : Table.set m k v = m := by
  induction m with
  | nil => simp [Table.find] at h
  | cons kv t ih =>
    by_cases hk : k = kv.1
    · simp [Table.find, hk] at h
      simp [Table.set, hk, ← h]
    · simp [Table.find, hk] at h
      simp [Table.set, hk, ih h]

theorem Table.mem_keys_set {α : Type} (m : Table α) (k k2 : String) (v : α)
    (h : k2 ∈ Table.keys m) : k2 ∈ Table.keys (Table.set m k v) := by
  by_cases hm : k ∈ Table.keys m
  · rw [Table.keys_set_of_mem m k v hm]
    exact h
  · rw [Table.keys_set_of_not_mem m k v hm]
    exact List.mem_append_left _ h

theorem applyWrites_mem_keys (ws : List (String × Page)) (m : Table Page) (k : String)
    (h : k ∈ Table.keys m) : k ∈ Table.keys (applyWrites m ws) := by
  induction ws generalizing m with
  | nil => exact h
  | cons w ws ih => exact ih _ (Table.mem_keys_set m w.1 k w.2 h)

theorem applyWrites_find_not_written (ws : List (String × Page)) (m : Table Page)
    (k : String) (h : ¬ k ∈ ws.map Prod.fst) :
    Table.find (applyWrites m ws) k = Table.find m k := by
  induction ws generalizing m with
  | nil => rfl
  | cons w ws ih =>
    have h1 : k ≠ w.1 := fun hx => h (by simp [hx])
    have h2 : ¬ k ∈ ws.map Prod.fst := fun hx => h (by simp [hx])
    rw [applyWrites, ih _ h2, Table.find_set_ne _ _ _ _ h1]

theorem applyWrites_set_absorb (ws : List (String × Page)) (M : Table Page)
    (k : String) (v : Page) (hk : k ∈ Table.keys M) (hw : k ∈ ws.map Prod.fst) :
    applyWrites (Table.set M k v) ws = applyWrites M ws := by
  induction ws generalizing M v with
  | nil => simp at hw
  | cons u ws ih =>
    by_cases h : u.1 = k
    · subst h
      rw [applyWrites, Table.set_set_same, applyWrites]
    · have hw2 : k ∈ ws.map Prod.fst := by
        rw [List.map_cons] at hw
        rcases List.mem_cons.1 hw with h1 | h1
        · exact absurd h1.symm h
        · exact h1
      rw [applyWrites, Table.set_comm_of_mem M k u.1 v u.2 hk (fun hx => h hx.symm),
        applyWrites]
      exact ih (Table.set M u.1 u.2) v (Table.mem_keys_set M u.1 k u.2 hk) hw2

theorem applyWrites_idem (ws : List (String × Page)) (m : Table Page) :
    applyWrites (applyWrites m ws) ws = applyWrites m ws := by
  induction ws generalizing m with
  | nil => rfl
  | cons w ws ih =>
    rw [applyWrites, applyWrites]
    by_cases hw : w.1 ∈ ws.map Prod.fst
    · have hk : w.1 ∈ Table.keys (applyWrites (Table.set m w.1 w.2) ws) := by
        apply applyWrites_mem_keys
        by_cases hm : w.1 ∈ Table.keys m
        · rw [Table.keys_set_of_mem m w.1 w.2 hm]
          exact hm
        · rw [Table.keys_set_of_not_mem m w.1 w.2 hm]
          exact List.mem_append_right _ (by simp)
      rw [applyWrites_set_absorb ws _ w.1 w.2 hk hw]
      exact ih (Table.set m w.1 w.2)
    · have hv : Table.find (applyWrites (Table.set m w.1 w.2) ws) w.1 = some w.2 := by
        rw [applyWrites_find_not_written ws _ w.1 hw, Table.find_set_self]
      rw [Table.set_of_find_eq _ _ _ hv]
      exact ih (Table.set m w.1 w.2)

/-! Characterisation of one redo pass. -/

theorem getLastD_of_ne_nil {α : Type} (l : List α) (d1 d2 : α) (h : l ≠ []) :
    l.getLastD d1 = l.getLastD d2 := by
  cases l with
  | nil => exact absurd rfl h
  | cons a t => rw [List.getLastD_cons, List.getLastD_cons]

theorem applyWrites_append (m : Table Page) (ws1 ws2 : List (String × Page)) :
    applyWrites m (ws1 ++ ws2) = applyWrites (applyWrites m ws1) ws2 := by
  induction ws1 generalizing m with
  | nil => rfl
  | cons w ws ih => simp [applyWrites, ih]

theorem redoWrites_cons (dpt : Table DirtyPageTableEntry) (disk : Table Page)
    (e : Entry) (rest : List Entry) :
    redoWrites dpt disk (e :: rest) = redoWrites dpt disk [e] ++ redoWrites dpt disk rest := by
  cases e with
  | update lsn T p b a pr =>
    by_cases hd : redoDecision dpt disk lsn p <;> simp [redoWrites, hd]
  | commit lsn T pr => simp [redoWrites]
  | endE lsn T pr => simp [redoWrites]
  | clr lsn T p af un pr => simp [redoWrites]
  | checkpoint lsn d t => simp [redoWrites]

theorem redo_entry_eq (s : State) (e : Entry) (h : updEntryOnDisk s.disk e = true) :
    redo_entry s e = { s with
      buffer_pool := applyWrites s.buffer_pool (redoWrites s.dirty_page_table s.disk [e])
      assert_failed := s.assert_failed || isClrE e } := by
  cases e with
  | update lsn T p b a pr =>
    simp [updEntryOnDisk, Option.isSome_iff_exists] at h
    obtain ⟨dpg, hd⟩ := h
    show redo_update s lsn p a = _
    unfold redo_update
    cases hdpt : Table.find s.dirty_page_table p with
    | none => simp [redoWrites, redoDecision, hdpt, applyWrites, isClrE]
    | some d =>
      by_cases h1 : lsn < d.rec_lsn
      · simp [h1, redoWrites, redoDecision, hdpt, applyWrites, isClrE]
      · simp [h1]
        rw [hd]
        by_cases h2 : (lsn : Int) ≤ dpg.page_lsn
        · have hdec : redoDecision s.dirty_page_table s.disk lsn p = false := by
            simp [redoDecision, hdpt, h1, hd]
            omega
          simp [h2, redoWrites, hdec, applyWrites, isClrE]
        · have hdec : redoDecision s.dirty_page_table s.disk lsn p = true := by
            simp [redoDecision, hdpt, h1, hd]
            omega
          simp [h2, redoWrites, hdec, applyWrites, isClrE]
          unfold pin
          rw [hd]
          cases hb : Table.find s.buffer_pool p with
          | some pg0 =>
            simp [hb]
          | none =>
            simp [hb, Table.find_set_self, Table.set_set_same]
  | commit lsn T pr => simp [redo_entry, redoWrites, applyWrites, isClrE]
  | endE lsn T pr => simp [redo_entry, redoWrites, applyWrites, isClrE]
  | clr lsn T p af un pr => simp [redo_entry, redoWrites, applyWrites, isClrE]
  | checkpoint lsn d t => simp [redo_entry, redoWrites, applyWrites, isClrE]

theorem redoSteps_final_eq (es : List Entry) (s : State)
    (h : ∀ e ∈ es, updEntryOnDisk s.disk e = true) :
    (redoSteps s es).getLastD s = { s with
      buffer_pool := applyWrites s.buffer_pool (redoWrites s.dirty_page_table s.disk es)
      assert_failed := s.assert_failed || hasClr es
      log_position := s.log_position.map (· + es.length) } := by
  induction es generalizing s with
  | nil =>
    show s = _
    cases s
    simp [applyWrites, redoWrites, hasClr]
  | cons e rest ih =>
    have he : updEntryOnDisk s.disk e = true := h e (List.mem_cons_self e rest)
    have s1eq : bump_pos (redo_entry s e) = { s with
        buffer_pool := applyWrites s.buffer_pool (redoWrites s.dirty_page_table s.disk [e])
        assert_failed := s.assert_failed || isClrE e
        log_position := s.log_position.map (· + 1) } := by
      rw [bump_pos, redo_entry_eq s e he]
    show (redoSteps s (e :: rest)).getLastD s = _
    rw [redoSteps, List.getLastD_cons]
    rw [s1eq]
    rw [ih]
    · simp [redoWrites_cons s.dirty_page_table s.disk e rest, applyWrites_append,
        hasClr, Bool.or_assoc, List.any_cons]
      cases s.log_position <;> simp [Nat.add_comm]
    · intro e2 he2
      exact h e2 (List.mem_cons_of_mem e he2)

theorem min_rec_lsn_congr (s1 s2 : State)
    (h : s1.dirty_page_table = s2.dirty_page_table) : min_rec_lsn s1 = min_rec_lsn s2 := by
  unfold min_rec_lsn
  rw [h]

theorem redoFinal_formula (s : State) (start : Nat) (hmin : min_rec_lsn s = some start)
    (hne : s.log.drop start ≠ [])
    (hdisk : ∀ e2 ∈ s.log.drop start, updEntryOnDisk s.disk e2 = true) :
    redoFinal s = { s with
      phase := .redo
      log_position := some (start + (s.log.drop start).length)
      buffer_pool := applyWrites s.buffer_pool
        (redoWrites s.dirty_page_table s.disk (s.log.drop start))
      assert_failed := s.assert_failed || hasClr (s.log.drop start) } := by
  unfold redoFinal redoSnaps
  rw [hmin]
  show (redoSteps { s with phase := Phase.redo, log_position := some start }
    (s.log.drop start)).getLastD s = _
  have hne2 : redoSteps { s with phase := Phase.redo, log_position := some start }
      (s.log.drop start) ≠ [] := by
    intro hc
    apply hne
    have hlen := redoSteps_length { s with phase := Phase.redo, log_position := some start }
      (s.log.drop start)
    rw [hc] at hlen
    exact List.length_eq_zero.1 hlen.symm
  rw [getLastD_of_ne_nil _ s { s with phase := Phase.redo, log_position := some start } hne2]
  rw [redoSteps_final_eq (s.log.drop start)
    { s with phase := Phase.redo, log_position := some start } hdisk]
  rfl

/-! Claim C6 (redo idempotence). -/

/-- C6 (amended): a second redo pass run immediately after a first one is
a no-op on the resulting state, but not for the reason the claim gives:
redo modifies neither the dirty page table nor the disk nor the log, so
the second pass makes exactly the same skip/redo decisions as the first
and reapplies — rather than skips — every update the first pass redid;
the reapplication writes the same page images, so the final state after
the second pass equals the final state after the first. -/
theorem C6_redo_idempotent (s : State) (h : UpdPagesOnDisk s) :
    (redoFinal s).dirty_page_table = s.dirty_page_table ∧
      (redoFinal s).disk = s.disk ∧ (redoFinal s).log = s.log ∧
      redoFinal (redoFinal s) = redoFinal s := by
  cases hmin : min_rec_lsn s with
  | none =>
    have hF : redoFinal s = s := by
      unfold redoFinal redoSnaps
      rw [hmin]
      rfl
    rw [hF]
    exact ⟨rfl, rfl, rfl, hF⟩
  | some start =>
    by_cases hes : s.log.drop start = []
    · have hF : redoFinal s = s := by
        unfold redoFinal redoSnaps
        rw [hmin]
        show (redoSteps { s with phase := Phase.redo, log_position := some start }
          (s.log.drop start)).getLastD s = s
        rw [hes]
        rfl
      rw [hF]
      exact ⟨rfl, rfl, rfl, hF⟩
    · have hdisk : ∀ e2 ∈ s.log.drop start, updEntryOnDisk s.disk e2 = true :=
        fun e2 he2 => h e2 (List.mem_of_mem_drop he2)
      have hF := redoFinal_formula s start hmin hes hdisk
      refine ⟨by rw [hF], by rw [hF], by rw [hF], ?_⟩
      have hF2 := redoFinal_formula (redoFinal s) start (by rw [hF]; exact hmin)
        (by rw [hF]; exact hes) (by rw [hF]; exact hdisk)
      rw [hF2, hF]
      simp [applyWrites_idem, Bool.or_assoc, Bool.or_self]

/-- C6 witness: the second redo pass over the run of `c6ops` (whose first
pass redid the update at LSN 0) yields the same final state as the
first. -/
theorem C6_witness :
    UpdPagesOnDisk (analysisFinal c6ops) ∧
      redoFinal (redoFinal (analysisFinal c6ops)) = redoFinal (analysisFinal c6ops) :=
  ⟨by unfold UpdPagesOnDisk; decide,
    (C6_redo_idempotent (analysisFinal c6ops) (by unfold UpdPagesOnDisk; decide)).2.2.2⟩

/-! Generic list lemmas used by the pipeline invariants. -/

theorem getElem?_some_lt {α : Type} {l : List α} {i : Nat} {a : α}
    (h : l[i]? = some a) : i < l.length := by
  by_contra hc
  rw [List.getElem?_eq_none (by omega)] at h
  exact Option.noConfusion h

theorem getElem?_append_l {α : Type} {l1 l2 : List α} {i : Nat} (h : i < l1.length) :
    (l1 ++ l2)[i]? = l1[i]? := List.getElem?_append_left h

theorem getLastD_concat' {α : Type} (l : List α) (x : α) (d : α) :
    (l ++ [x]).getLastD d = x := by
  induction l generalizing d with
  | nil => rfl
  | cons y ys ih => rw [List.cons_append, List.getLastD_cons, ih]

theorem UpdAt.append {log ext : List Entry} {L : Nat} {T : String}
    (h : UpdAt log L T) : UpdAt (log ++ ext) L T := by
  obtain ⟨l, pid, b, a, pr, hget⟩ := h
  exact ⟨l, pid, b, a, pr, by rw [getElem?_append_l (getElem?_some_lt hget)]; exact hget⟩

theorem UpdAt.take {log : List Entry} {n L : Nat} {T : String}
    (h : UpdAt log L T) (hL : L < n) : UpdAt (log.take n) L T := by
  obtain ⟨l, pid, b, a, pr, hget⟩ := h
  exact ⟨l, pid, b, a, pr, by rw [List.getElem?_take_of_lt hL]; exact hget⟩

theorem getElem?_concat_self {α : Type} (l : List α) (x : α) :
    (l ++ [x])[l.length]? = some x := by
  rw [List.getElem?_append_right (Nat.le_refl _)]
  simp

theorem getElem?_concat2_fst {α : Type} (l : List α) (x y : α) :
    (l ++ [x, y])[l.length]? = some x := by
  rw [List.getElem?_append_right (Nat.le_refl _)]
  simp

theorem getElem?_concat2_snd {α : Type} (l : List α) (x y : α) :
    (l ++ [x, y])[l.length + 1]? = some y := by
  rw [List.getElem?_append_right (by omega)]
  simp

/-! Frame lemmas for the forward-processing helpers. -/

theorem dirty_frame (s : State) (p : String) (r : Nat) :
    (dirty s p r).log = s.log ∧ (dirty s p r).txn_table = s.txn_table ∧
      (dirty s p r).num_flushed = s.num_flushed ∧ (dirty s p r).buffer_pool = s.buffer_pool ∧
      (dirty s p r).disk = s.disk := by
  unfold dirty
  by_cases h1 : (Table.find s.disk p).isSome <;> simp [h1] <;>
    by_cases h2 : (Table.find s.dirty_page_table p).isSome <;> simp [h2]

theorem begin_txn_frame (s : State) (T : String) :
    (begin_txn s T).log = s.log ∧ (begin_txn s T).num_flushed = s.num_flushed ∧
      (begin_txn s T).dirty_page_table = s.dirty_page_table ∧
      (begin_txn s T).buffer_pool = s.buffer_pool ∧ (begin_txn s T).disk = s.disk := by
  unfold begin_txn
  by_cases h : (Table.find s.txn_table T).isSome <;> simp [h]

theorem begin_txn_tbl (s : State) (T : String) (v : TxnTableEntry) :
    Table.set (begin_txn s T).txn_table T v = Table.set s.txn_table T v := by
  unfold begin_txn
  by_cases h : (Table.find s.txn_table T).isSome <;> simp [h, Table.set_set_same]

theorem flush_frame (s : State) (p : String) :
    (flush s p).log = s.log ∧ (flush s p).txn_table = s.txn_table ∧
      (flush s p).num_flushed = s.num_flushed ∧
      (flush s p).dirty_page_table = s.dirty_page_table := by
  unfold flush
  by_cases h1 : (Table.find s.disk p).isSome <;> simp [h1] <;>
    cases Table.find s.buffer_pool p <;> simp

theorem set_last_lsn_frame (s : State) (T : String) (lsn : Nat) :
    (set_last_lsn s T lsn).log = s.log ∧
      (set_last_lsn s T lsn).num_flushed = s.num_flushed ∧
      (set_last_lsn s T lsn).dirty_page_table = s.dirty_page_table ∧
      (set_last_lsn s T lsn).buffer_pool = s.buffer_pool ∧
      (set_last_lsn s T lsn).disk = s.disk := by
  unfold set_last_lsn
  cases Table.find s.txn_table T <;> simp

/-! Shape lemmas for forward processing: the log, transaction table and
durable count after each operation. -/

theorem pin_log (s : State) (p : String) : (pin s p).log = s.log := (pin_frame s p).1

theorem pin_txn (s : State) (p : String) : (pin s p).txn_table = s.txn_table :=
  (pin_frame s p).2.1

theorem pin_nf (s : State) (p : String) : (pin s p).num_flushed = s.num_flushed :=
  (pin_frame s p).2.2.1

theorem dirty_log (s : State) (p : String) (r : Nat) : (dirty s p r).log = s.log :=
  (dirty_frame s p r).1

theorem dirty_txn (s : State) (p : String) (r : Nat) :
    (dirty s p r).txn_table = s.txn_table := (dirty_frame s p r).2.1

theorem dirty_nf (s : State) (p : String) (r : Nat) :
    (dirty s p r).num_flushed = s.num_flushed := (dirty_frame s p r).2.2.1

theorem begin_txn_log (s : State) (T : String) : (begin_txn s T).log = s.log :=
  (begin_txn_frame s T).1

theorem begin_txn_nf (s : State) (T : String) :
    (begin_txn s T).num_flushed = s.num_flushed := (begin_txn_frame s T).2.1

theorem process_write_shape (s : State) (T p v : String) :
    ((process_write s T p v).log = s.log ∧
      (process_write s T p v).txn_table = s.txn_table ∧
      (process_write s T p v).num_flushed = s.num_flushed) ∨
    (∃ before, (process_write s T p v).log = s.log ++
        [Entry.update s.log.length T p before v (last_lsn s T)] ∧
      (process_write s T p v).txn_table =
        Table.set s.txn_table T ⟨some TxnStatus.in_progress, some s.log.length⟩ ∧
      (process_write s T p v).num_flushed = s.num_flushed) := by
  cases hb : Table.find (pin s p).buffer_pool p with
  | none =>
    refine Or.inl ?_
    simp [process_write, hb, pin_log, pin_txn, pin_nf]
  | some pg =>
    refine Or.inr ⟨pg.value, ?_⟩
    simp [process_write, hb, pin_log, pin_txn, pin_nf, dirty_log, dirty_txn, dirty_nf,
      begin_txn_log, begin_txn_nf, begin_txn_tbl, last_lsn]

theorem process_commit_shape (s : State) (T : String) :
    (process_commit s T).log = s.log ++
        [Entry.commit s.log.length T (last_lsn s T),
          Entry.endE (s.log.length + 1) T (some s.log.length)] ∧
      (process_commit s T).txn_table = Table.del s.txn_table T ∧
      (process_commit s T).num_flushed = max s.num_flushed (s.log.length + 2) := by
  refine ⟨rfl, rfl, ?_⟩
  show max s.num_flushed ((((s.log.length + 1 : Nat) : Int)) + 1).toNat = _
  omega

theorem process_checkpoint_shape (s : State) :
    (process_checkpoint s).log = s.log ++
        [Entry.checkpoint s.log.length s.dirty_page_table s.txn_table] ∧
      (process_checkpoint s).txn_table = s.txn_table ∧
      (process_checkpoint s).num_flushed = s.num_flushed :=
  ⟨rfl, rfl, rfl⟩

theorem process_flush_shape (s : State) (p : String) :
    (process_flush s p).log = s.log ∧ (process_flush s p).txn_table = s.txn_table ∧
      s.num_flushed ≤ (process_flush s p).num_flushed := by
  unfold process_flush
  cases hpl : page_lsn s p with
  | none =>
    by_cases h : (Table.find s.dirty_page_table p).isSome <;> simp [h]
  | some plsn =>
    obtain ⟨f1, f2, f3, f4⟩ := flush_frame (flush_log s plsn) p
    refine ⟨?_, ?_, ?_⟩
    · show (flush (flush_log s plsn) p).log = s.log
      rw [f1]
      rfl
    · show (flush (flush_log s plsn) p).txn_table = s.txn_table
      rw [f2]
      rfl
    · show s.num_flushed ≤ (flush (flush_log s plsn) p).num_flushed
      rw [f3]
      show s.num_flushed ≤ max s.num_flushed _
      omega

/-! Forward-processing invariant: establishment and preservation. -/

theorem getElem?_concat_cases {α : Type} {l : List α} {x : α} {i : Nat} {e : α}
    (h : (l ++ [x])[i]? = some e) :
    (i < l.length ∧ l[i]? = some e) ∨ (i = l.length ∧ e = x) := by
  by_cases hi : i < l.length
  · exact Or.inl ⟨hi, by rwa [getElem?_append_l hi] at h⟩
  · have hlen := getElem?_some_lt h
    simp at hlen
    have hieq : i = l.length := by omega
    subst hieq
    rw [getElem?_concat_self] at h
    exact Or.inr ⟨rfl, (Option.some.inj h).symm⟩

theorem getElem?_concat2_cases {α : Type} {l : List α} {x y : α} {i : Nat} {e : α}
    (h : (l ++ [x, y])[i]? = some e) :
    (i < l.length ∧ l[i]? = some e) ∨ (i = l.length ∧ e = x) ∨
      (i = l.length + 1 ∧ e = y) := by
  by_cases hi : i < l.length
  · exact Or.inl ⟨hi, by rwa [getElem?_append_l hi] at h⟩
  · have hlen := getElem?_some_lt h
    simp at hlen
    by_cases hi2 : i = l.length
    · subst hi2
      rw [getElem?_concat2_fst] at h
      exact Or.inr (Or.inl ⟨rfl, (Option.some.inj h).symm⟩)
    · have hieq : i = l.length + 1 := by omega
      subst hieq
      rw [getElem?_concat2_snd] at h
      exact Or.inr (Or.inr ⟨rfl, (Option.some.inj h).symm⟩)

theorem fwdInv_of_eq (s1 s2 : State) (hl : s2.log = s1.log)
    (ht : s2.txn_table = s1.txn_table) (hn : s2.num_flushed = s1.num_flushed)
    (h : FwdInv s1) : FwdInv s2 := by
  unfold FwdInv
  rw [hl, ht, hn]
  exact h

theorem commitEnds_mono {log : List Entry} {nf nf2 : Nat} (h : CommitEnds log nf)
    (hle : nf ≤ nf2) : CommitEnds log nf2 := by
  intro i l T pr hget
  exact ⟨(h i l T pr hget).1, le_trans (h i l T pr hget).2 hle⟩

theorem TblUpd.extend {log : List Entry} {t : Table TxnTableEntry} (h : TblUpd log t)
    (es : List Entry) : TblUpd (log ++ es) t := by
  intro T e hf
  obtain ⟨L, h1, h2, h3⟩ := h T e hf
  exact ⟨L, h1, by simp; omega, h3.append⟩

theorem fwdInv_write (s : State) (T p v : String) (h : FwdInv s) :
    FwdInv (process_write s T p v) := by
  obtain ⟨hIdx, hCh, hTbl, hCE, hCk, hNd⟩ := h
  rcases process_write_shape s T p v with ⟨h1, h2, h3⟩ | ⟨before, h1, h2, h3⟩
  · exact fwdInv_of_eq s _ h1 h2 h3 ⟨hIdx, hCh, hTbl, hCE, hCk, hNd⟩
  · unfold FwdInv
    rw [h1, h2, h3]
    refine ⟨?_, ?_, ?_, ?_, ?_, ?_⟩
    · intro i e hget
      rcases getElem?_concat_cases hget with ⟨hi, hg⟩ | ⟨hi, hg⟩
      · exact hIdx i e hg
      · subst hi
        rw [hg]
        rfl
    · intro i l T2 pid b a pp hget
      rcases getElem?_concat_cases hget with ⟨hi, hg⟩ | ⟨hi, hg⟩
      · obtain ⟨hlt, hupd⟩ := hCh i l T2 pid b a pp hg
        exact ⟨hlt, hupd.append⟩
      · subst hi
        injection hg with e1 e2 e3 e4 e5 e6
        subst e2
        have hlast : last_lsn s T2 = some pp := e6.symm
        unfold last_lsn at hlast
        cases hf : Table.find s.txn_table T2 with
        | none => rw [hf] at hlast; exact Option.noConfusion hlast
        | some e0 =>
          rw [hf] at hlast
          obtain ⟨L, hL1, hL2, hL3⟩ := hTbl T2 e0 hf
          have hpL : pp = L := by
            simp [hL1] at hlast
            exact hlast.symm
          subst hpL
          exact ⟨hL2, hL3.append⟩
    · intro T2 e hf
      by_cases hT : T2 = T
      · subst hT
        rw [Table.find_set_self] at hf
        have he := (Option.some.inj hf).symm
        subst he
        refine ⟨s.log.length, rfl, by simp, ?_⟩
        exact ⟨s.log.length, p, before, v, _, getElem?_concat_self _ _⟩
      · rw [Table.find_set_ne _ _ _ _ hT] at hf
        obtain ⟨L, h1, h2, h3⟩ := hTbl T2 e hf
        exact ⟨L, h1, by simp; omega, h3.append⟩
    · intro i l T2 pr hget
      rcases getElem?_concat_cases hget with ⟨hi, hg⟩ | ⟨hi, hg⟩
      · obtain ⟨hend, hnf⟩ := hCE i l T2 pr hg
        have : i + 1 < s.log.length := getElem?_some_lt hend
        exact ⟨by rw [getElem?_append_l this]; exact hend, hnf⟩
      · exact Entry.noConfusion hg
    · intro i l dpt tt hget
      rcases getElem?_concat_cases hget with ⟨hi, hg⟩ | ⟨hi, hg⟩
      · obtain ⟨hnd, hp⟩ := hCk i l dpt tt hg
        refine ⟨hnd, ?_⟩
        intro T2 e hf
        obtain ⟨L, h1, h2, h3⟩ := hp T2 e hf
        exact ⟨L, h1, h2, h3.append⟩
      · exact Entry.noConfusion hg
    · by_cases hm : T ∈ Table.keys s.txn_table
      · rw [Table.keys_set_of_mem _ _ _ hm]
        exact hNd
      · rw [Table.keys_set_of_not_mem _ _ _ hm]
        simp [List.nodup_append, hNd]
        exact hm

theorem fwdInv_commit (s : State) (T : String) (h : FwdInv s) :
    FwdInv (process_commit s T) := by
  obtain ⟨hIdx, hCh, hTbl, hCE, hCk, hNd⟩ := h
  obtain ⟨h1, h2, h3⟩ := process_commit_shape s T
  unfold FwdInv
  rw [h1, h2, h3]
  refine ⟨?_, ?_, ?_, ?_, ?_, ?_⟩
  · intro i e hget
    rcases getElem?_concat2_cases hget with ⟨hi, hg⟩ | ⟨hi, hg⟩ | ⟨hi, hg⟩
    · exact hIdx i e hg
    · subst hi; rw [hg]; rfl
    · subst hi; rw [hg]; rfl
  · intro i l T2 pid b a pp hget
    rcases getElem?_concat2_cases hget with ⟨hi, hg⟩ | ⟨hi, hg⟩ | ⟨hi, hg⟩
    · obtain ⟨hlt, hupd⟩ := hCh i l T2 pid b a pp hg
      exact ⟨hlt, hupd.append⟩
    · exact Entry.noConfusion hg
    · exact Entry.noConfusion hg
  · intro T2 e hf
    by_cases hT : T2 = T
    · subst hT
      rw [Table.find_del_self] at hf
      exact Option.noConfusion hf
    · rw [Table.find_del_ne _ _ _ hT] at hf
      obtain ⟨L, hL1, hL2, hL3⟩ := hTbl T2 e hf
      exact ⟨L, hL1, by simp; omega, hL3.append⟩
  · intro i l T2 pr hget
    rcases getElem?_concat2_cases hget with ⟨hi, hg⟩ | ⟨hi, hg⟩ | ⟨hi, hg⟩
    · obtain ⟨hend, hnf⟩ := hCE i l T2 pr hg
      have hlt : i + 1 < s.log.length := getElem?_some_lt hend
      refine ⟨by rw [getElem?_append_l hlt]; exact hend, by omega⟩
    · subst hi
      injection hg with e1 e2 e3
      subst e2
      exact ⟨by rw [getElem?_concat2_snd], by omega⟩
    · exact Entry.noConfusion hg
  · intro i l dpt tt hget
    rcases getElem?_concat2_cases hget with ⟨hi, hg⟩ | ⟨hi, hg⟩ | ⟨hi, hg⟩
    · obtain ⟨hnd, hp⟩ := hCk i l dpt tt hg
      refine ⟨hnd, fun T2 e hf => ?_⟩
      obtain ⟨L, hL1, hL2, hL3⟩ := hp T2 e hf
      exact ⟨L, hL1, hL2, hL3.append⟩
    · exact Entry.noConfusion hg
    · exact Entry.noConfusion hg
  · rw [Table.keys_del_eq_erase _ _ hNd]
    exact hNd.erase T

theorem fwdInv_checkpoint (s : State) (h : FwdInv s) : FwdInv (process_checkpoint s) := by
  obtain ⟨hIdx, hCh, hTbl, hCE, hCk, hNd⟩ := h
  obtain ⟨h1, h2, h3⟩ := process_checkpoint_shape s
  unfold FwdInv
  rw [h1, h2, h3]
  refine ⟨?_, ?_, ?_, ?_, ?_, hNd⟩
  · intro i e hget
    rcases getElem?_concat_cases hget with ⟨hi, hg⟩ | ⟨hi, hg⟩
    · exact hIdx i e hg
    · subst hi; rw [hg]; rfl
  · intro i l T2 pid b a pp hget
    rcases getElem?_concat_cases hget with ⟨hi, hg⟩ | ⟨hi, hg⟩
    · obtain ⟨hlt, hupd⟩ := hCh i l T2 pid b a pp hg
      exact ⟨hlt, hupd.append⟩
    · exact Entry.noConfusion hg
  · exact hTbl.extend _
  · intro i l T2 pr hget
    rcases getElem?_concat_cases hget with ⟨hi, hg⟩ | ⟨hi, hg⟩
    · obtain ⟨hend, hnf⟩ := hCE i l T2 pr hg
      have hlt : i + 1 < s.log.length := getElem?_some_lt hend
      exact ⟨by rw [getElem?_append_l hlt]; exact hend, hnf⟩
    · exact Entry.noConfusion hg
  · intro i l dpt tt hget
    rcases getElem?_concat_cases hget with ⟨hi, hg⟩ | ⟨hi, hg⟩
    · obtain ⟨hnd, hp⟩ := hCk i l dpt tt hg
      refine ⟨hnd, fun T2 e hf => ?_⟩
      obtain ⟨L, hL1, hL2, hL3⟩ := hp T2 e hf
      exact ⟨L, hL1, hL2, hL3.append⟩
    · subst hi
      injection hg with e1 e2 e3
      subst e3
      refine ⟨hNd, fun T2 e hf => ?_⟩
      obtain ⟨L, hL1, hL2, hL3⟩ := hTbl T2 e hf
      exact ⟨L, hL1, by omega, hL3.append⟩

theorem fwdInv_flush (s : State) (p : String) (h : FwdInv s) :
    FwdInv (process_flush s p) := by
  obtain ⟨hIdx, hCh, hTbl, hCE, hCk, hNd⟩ := h
  obtain ⟨h1, h2, h3⟩ := process_flush_shape s p
  unfold FwdInv
  rw [h1, h2]
  exact ⟨hIdx, hCh, hTbl, commitEnds_mono hCE h3, hCk, hNd⟩

theorem fwdInv_op (s : State) (op : Op) (h : FwdInv s) : FwdInv (process_op s op) := by
  have hof : ∀ s2 : State, FwdInv s2 →
      FwdInv { s2 with num_ops_processed := s2.num_ops_processed + 1 } := by
    intro s2 h2
    exact fwdInv_of_eq s2 _ rfl rfl rfl h2
  cases op with
  | write T p v => exact hof _ (fwdInv_write s T p v h)
  | commit T => exact hof _ (fwdInv_commit s T h)
  | flush p => exact hof _ (fwdInv_flush s p h)
  | checkpoint => exact hof _ (fwdInv_checkpoint s h)

theorem fwdInv_initState (ops : List Op) : FwdInv (initState ops) := by
  have hlog : (initState ops).log = [] := rfl
  have htbl : (initState ops).txn_table = [] := rfl
  unfold FwdInv
  rw [hlog, htbl]
  refine ⟨?_, ?_, ?_, ?_, ?_, ?_⟩
  · intro i e hget
    simp at hget
  · intro i l T pid b a p hget
    simp at hget
  · intro T e hf
    simp [Table.find] at hf
  · intro i l T pr hget
    simp at hget
  · intro i l dpt tt hget
    simp at hget
  · simp [Table.keys]

theorem forwardSnaps_getLastD (ops : List Op) (s : State) :
    (forwardSnaps s ops).getLastD s = List.foldl process_op s ops := by
  induction ops generalizing s with
  | nil => rfl
  | cons op rest ih =>
    rw [forwardSnaps, List.getLastD_cons, List.foldl_cons]
    exact ih (process_op s op)

theorem fwdInv_forwardFinal (ops : List Op) : FwdInv (forwardFinal ops) := by
  unfold forwardFinal
  rw [forwardSnaps_getLastD]
  have h0 := fwdInv_initState ops
  generalize initState ops = s at h0 ⊢
  induction ops generalizing s with
  | nil => exact h0
  | cons op rest ih => exact ih (process_op s op) (fwdInv_op s op h0)

/-! Invariants survive the crash truncation. -/

theorem UpdAt.take' {log : List Entry} {n L : Nat} {T : String}
    (h : UpdAt log L T) (hL : L < n) : UpdAt (log.take n) L T := h.take hL

theorem crashInv (s : State) (h : FwdInv s) :
    LsnIdx (crash s).log ∧ UpdChain (crash s).log ∧
      CommitEnds (crash s).log (crash s).num_flushed ∧ CkptTbl (crash s).log := by
  obtain ⟨hIdx, hCh, hTbl, hCE, hCk, hNd⟩ := h
  show LsnIdx (s.log.take s.num_flushed) ∧ UpdChain (s.log.take s.num_flushed) ∧
    CommitEnds (s.log.take s.num_flushed) s.num_flushed ∧ CkptTbl (s.log.take s.num_flushed)
  have htake : ∀ (i : Nat) (e : Entry), (s.log.take s.num_flushed)[i]? = some e →
      i < s.num_flushed ∧ s.log[i]? = some e := by
    intro i e hget
    have hi : i < (s.log.take s.num_flushed).length := getElem?_some_lt hget
    rw [List.length_take] at hi
    have hi2 : i < s.num_flushed := lt_of_lt_of_le hi (min_le_left _ _)
    exact ⟨hi2, by rwa [List.getElem?_take_of_lt hi2] at hget⟩
  refine ⟨?_, ?_, ?_, ?_⟩
  · intro i e hget
    exact hIdx i e (htake i e hget).2
  · intro i l T pid b a p hget
    obtain ⟨hi, hg⟩ := htake _ _ hget
    obtain ⟨hlt, hupd⟩ := hCh i l T pid b a p hg
    exact ⟨hlt, hupd.take (by omega)⟩
  · intro i l T pr hget
    obtain ⟨hi, hg⟩ := htake _ _ hget
    obtain ⟨hend, hnf2⟩ := hCE i l T pr hg
    refine ⟨?_, hnf2⟩
    rw [List.getElem?_take_of_lt (by omega)]
    exact hend
  · intro i l dpt tt hget
    obtain ⟨hi, hg⟩ := htake _ _ hget
    obtain ⟨hnd, hp⟩ := hCk i l dpt tt hg
    refine ⟨hnd, fun T e hf => ?_⟩
    obtain ⟨L, h1, h2, h3⟩ := hp T e hf
    exact ⟨L, h1, h2, h3.take (by omega)⟩

/-! The analysis scan rebuilds a transaction table whose entries point to
update entries. -/

theorem begin_txn_tbl_present (s : State) (T : String)
    (h : (Table.find s.txn_table T).isSome = true) :
    (begin_txn s T).txn_table = s.txn_table := by
  unfold begin_txn
  simp [h]

theorem begin_txn_tbl_absent (s : State) (T : String)
    (h : ¬ (Table.find s.txn_table T).isSome = true) :
    (begin_txn s T).txn_table = Table.set s.txn_table T ⟨none, none⟩ := by
  unfold begin_txn
  simp [h]

theorem anaInv_vacuous (log : List Entry) (j : Nat) : AnaInv log j [] := by
  refine ⟨by simp [Table.keys], fun T e hf => ?_⟩
  simp [Table.find] at hf

theorem ana_step (nf : Nat) (s : State) (j : Nat) (e : Entry)
    (hIdx : LsnIdx s.log) (hCE : CommitEnds s.log nf) (hCk : CkptTbl s.log)
    (hj : s.log[j]? = some e) (hA : AnaInv s.log j s.txn_table) :
    (analysis_entry s e).log = s.log ∧ AnaInv s.log (j + 1) (analysis_entry s e).txn_table := by
  obtain ⟨hNd, hP⟩ := hA
  have hjlen : j < s.log.length := getElem?_some_lt hj
  have hnotend : ∀ L T2, CommitAt s.log L T2 → j ≤ L + 1 → j ≠ L + 1 →
      j + 1 ≤ L + 1 := by
    intro L T2 hcom hle hne
    omega
  cases e with
  | update l T p b a pr =>
    have hlsn : l = j := hIdx j _ hj
    subst hlsn
    show (analysis_update s l T p).log = s.log ∧ _
    unfold analysis_update
    constructor
    · rw [(set_last_lsn_frame _ _ _).1, begin_txn_log, dirty_log]
    · have hdt : (dirty s p l).txn_table = s.txn_table := dirty_txn s p l
      by_cases hfT : (Table.find s.txn_table T).isSome = true
      · obtain ⟨e0, he0⟩ := Option.isSome_iff_exists.1 hfT
        have ht1 : (begin_txn (dirty s p l) T).txn_table = s.txn_table := by
          rw [begin_txn_tbl_present _ _ (by rw [hdt]; exact hfT), hdt]
        have hfind : Table.find (begin_txn (dirty s p l) T).txn_table T = some e0 := by
          rw [ht1]
          exact he0
        show AnaInv s.log (l + 1) (set_last_lsn _ T l).txn_table
        unfold set_last_lsn
        rw [hfind]
        show AnaInv s.log (l + 1) (Table.set _ T _)
        rw [ht1]
        refine ⟨?_, ?_⟩
        · rw [Table.keys_set_of_mem _ _ _
            (Table.mem_keys_of_find_isSome _ _ (by rw [he0]; rfl))]
          exact hNd
        · intro T2 e2 hf2
          by_cases hT2 : T2 = T
          · subst hT2
            rw [Table.find_set_self] at hf2
            have he2 := (Option.some.inj hf2).symm
            subst he2
            exact ⟨l, rfl, hjlen, Or.inl ⟨l, p, b, a, pr, hj⟩⟩
          · rw [Table.find_set_ne _ _ _ _ hT2] at hf2
            obtain ⟨L, p1, p2, p3⟩ := hP T2 e2 hf2
            rcases p3 with p3 | ⟨hcom, hle⟩
            · exact ⟨L, p1, p2, Or.inl p3⟩
            · refine ⟨L, p1, p2, Or.inr ⟨hcom, hnotend L T2 hcom hle ?_⟩⟩
              intro heq
              obtain ⟨lc, prc, hcget⟩ := hcom
              obtain ⟨hend, hnf2⟩ := hCE L lc T2 prc hcget
              rw [← heq] at hend
              rw [hj] at hend
              exact Entry.noConfusion (Option.some.inj hend)
      · have ht1 : (begin_txn (dirty s p l) T).txn_table =
            Table.set s.txn_table T ⟨none, none⟩ := by
          rw [begin_txn_tbl_absent _ _ (by rw [hdt]; exact hfT), hdt]
        have hfind : Table.find (begin_txn (dirty s p l) T).txn_table T =
            some ⟨none, none⟩ := by
          rw [ht1]
          exact Table.find_set_self _ _ _
        show AnaInv s.log (l + 1) (set_last_lsn _ T l).txn_table
        unfold set_last_lsn
        rw [hfind]
        show AnaInv s.log (l + 1) (Table.set _ T _)
        rw [ht1, Table.set_set_same]
        have hmem : ¬ T ∈ Table.keys s.txn_table := by
          intro hmem
          exact hfT (Table.find_isSome_of_mem_keys _ _ hmem)
        refine ⟨?_, ?_⟩
        · rw [Table.keys_set_of_not_mem _ _ _ hmem]
          simp [List.nodup_append, hNd]
          exact hmem
        · intro T2 e2 hf2
          by_cases hT2 : T2 = T
          · subst hT2
            rw [Table.find_set_self] at hf2
            have he2 := (Option.some.inj hf2).symm
            subst he2
            exact ⟨l, rfl, hjlen, Or.inl ⟨l, p, b, a, pr, hj⟩⟩
          · rw [Table.find_set_ne _ _ _ _ hT2] at hf2
            obtain ⟨L, p1, p2, p3⟩ := hP T2 e2 hf2
            rcases p3 with p3 | ⟨hcom, hle⟩
            · exact ⟨L, p1, p2, Or.inl p3⟩
            · refine ⟨L, p1, p2, Or.inr ⟨hcom, hnotend L T2 hcom hle ?_⟩⟩
              intro heq
              obtain ⟨lc, prc, hcget⟩ := hcom
              obtain ⟨hend, hnf2⟩ := hCE L lc T2 prc hcget
              rw [← heq, hj] at hend
              exact Entry.noConfusion (Option.some.inj hend)
  | commit l T pr =>
    have hlsn : l = j := hIdx j _ hj
    subst hlsn
    show (analysis_commit s l T).log = s.log ∧ _
    constructor
    · show (begin_txn s T).log = s.log
      exact begin_txn_log s T
    · show AnaInv s.log (l + 1) (Table.set (begin_txn s T).txn_table T _)
      rw [begin_txn_tbl]
      refine ⟨?_, ?_⟩
      · by_cases hmem : T ∈ Table.keys s.txn_table
        · rw [Table.keys_set_of_mem _ _ _ hmem]
          exact hNd
        · rw [Table.keys_set_of_not_mem _ _ _ hmem]
          simp [List.nodup_append, hNd]
          exact hmem
      · intro T2 e2 hf2
        by_cases hT2 : T2 = T
        · subst hT2
          rw [Table.find_set_self] at hf2
          have he2 := (Option.some.inj hf2).symm
          subst he2
          exact ⟨l, rfl, hjlen, Or.inr ⟨⟨l, pr, hj⟩, by omega⟩⟩
        · rw [Table.find_set_ne _ _ _ _ hT2] at hf2
          obtain ⟨L, p1, p2, p3⟩ := hP T2 e2 hf2
          rcases p3 with p3 | ⟨hcom, hle⟩
          · exact ⟨L, p1, p2, Or.inl p3⟩
          · refine ⟨L, p1, p2, Or.inr ⟨hcom, hnotend L T2 hcom hle ?_⟩⟩
            intro heq
            obtain ⟨lc, prc, hcget⟩ := hcom
            obtain ⟨hend, hnf2⟩ := hCE L lc T2 prc hcget
            rw [← heq, hj] at hend
            exact Entry.noConfusion (Option.some.inj hend)
  | endE l T pr =>
    refine ⟨rfl, ?_, ?_⟩
    · show (Table.keys (Table.del s.txn_table T)).Nodup
      rw [Table.keys_del_eq_erase _ _ hNd]
      exact hNd.erase T
    · intro T2 e2 hf2
      replace hf2 : Table.find (Table.del s.txn_table T) T2 = some e2 := hf2
      have hT2 : T2 ≠ T := by
        intro heq
        subst heq
        rw [Table.find_del_self] at hf2
        exact Option.noConfusion hf2
      rw [Table.find_del_ne _ _ _ hT2] at hf2
      obtain ⟨L, p1, p2, p3⟩ := hP T2 e2 hf2
      rcases p3 with p3 | ⟨hcom, hle⟩
      · exact ⟨L, p1, p2, Or.inl p3⟩
      · refine ⟨L, p1, p2, Or.inr ⟨hcom, hnotend L T2 hcom hle ?_⟩⟩
        intro heq
        obtain ⟨lc, prc, hcget⟩ := hcom
        obtain ⟨hend, hnf2⟩ := hCE L lc T2 prc hcget
        rw [← heq, hj] at hend
        injection Option.some.inj hend with q1 q2 q3
        exact hT2 q2.symm
  | clr l T p af un pr =>
    refine ⟨rfl, hNd, ?_⟩
    intro T2 e2 hf2
    replace hf2 : Table.find s.txn_table T2 = some e2 := hf2
    obtain ⟨L, p1, p2, p3⟩ := hP T2 e2 hf2
    rcases p3 with p3 | ⟨hcom, hle⟩
    · exact ⟨L, p1, p2, Or.inl p3⟩
    · refine ⟨L, p1, p2, Or.inr ⟨hcom, hnotend L T2 hcom hle ?_⟩⟩
      intro heq
      obtain ⟨lc, prc, hcget⟩ := hcom
      obtain ⟨hend, hnf2⟩ := hCE L lc T2 prc hcget
      rw [← heq, hj] at hend
      exact Entry.noConfusion (Option.some.inj hend)
  | checkpoint l dpt tt =>
    obtain ⟨hnd, hp⟩ := hCk j l dpt tt hj
    constructor
    · show (analysis_checkpoint s dpt tt).log = s.log
      unfold analysis_checkpoint
      by_cases hc : (is_object_empty s.dirty_page_table && is_object_empty s.txn_table &&
          is_object_empty s.buffer_pool) = true <;> simp [hc]
    show AnaInv s.log (j + 1) tt
    refine ⟨hnd, fun T2 e2 hf2 => ?_⟩
    obtain ⟨L, p1, p2, p3⟩ := hp T2 e2 hf2
    exact ⟨L, p1, by omega, Or.inl p3⟩

theorem ana_scan (nf : Nat) (es : List Entry) :
    ∀ (j : Nat) (s : State), LsnIdx s.log → CommitEnds s.log nf → CkptTbl s.log →
      s.log.drop j = es → AnaInv s.log j s.txn_table →
      ((analysisSteps s es).getLastD s).log = s.log ∧
        AnaInv s.log (j + es.length) ((analysisSteps s es).getLastD s).txn_table := by
  induction es with
  | nil =>
    intro j s h1 h2 h3 hd hA
    exact ⟨rfl, by simpa using hA⟩
  | cons e rest ih =>
    intro j s h1 h2 h3 hd hA
    have hj : s.log[j]? = some e := by
      have h0 : (s.log.drop j)[0]? = some e := by rw [hd]; simp
      rwa [List.getElem?_drop, Nat.add_zero] at h0
    obtain ⟨hlog1, hA1⟩ := ana_step nf s j e h1 h2 h3 hj hA
    have hlog1b : (bump_pos (analysis_entry s e)).log = s.log := hlog1
    have htbl1 : (bump_pos (analysis_entry s e)).txn_table =
      (analysis_entry s e).txn_table := rfl
    rw [analysisSteps, List.getLastD_cons]
    have hd1 : (bump_pos (analysis_entry s e)).log.drop (j + 1) = rest := by
      rw [hlog1b]
      have hdd : s.log.drop (j + 1) = (s.log.drop j).drop 1 := by rw [List.drop_drop]
      rw [hdd, hd]
      rfl
    obtain ⟨r1, r2⟩ := ih (j + 1) (bump_pos (analysis_entry s e))
      (by rw [hlog1b]; exact h1) (by rw [hlog1b]; exact h2) (by rw [hlog1b]; exact h3)
      hd1 (by rw [hlog1b, htbl1]; exact hA1)
    rw [hlog1b] at r1 r2
    refine ⟨r1, ?_⟩
    have harith : (j + 1) + rest.length = j + (e :: rest).length := by
      simp [List.length_cons]
      omega
    rwa [harith] at r2

theorem markAborted_keys (t : Table TxnTableEntry) :
    Table.keys (markAborted t) = Table.keys t := by
  induction t with
  | nil => rfl
  | cons kv t ih =>
    by_cases h : kv.2.txn_status = some TxnStatus.in_progress <;>
      simp [markAborted, Table.keys, h] at ih ⊢ <;>
      simpa [Table.keys] using ih

theorem markAborted_find (t : Table TxnTableEntry) (T : String) :
    Table.find (markAborted t) T = (Table.find t T).map (fun e =>
      if e.txn_status = some TxnStatus.in_progress then
        { e with txn_status := some TxnStatus.aborted } else e) := by
  induction t with
  | nil => rfl
  | cons kv t ih =>
    by_cases hT : T = kv.1
    · by_cases h : kv.2.txn_status = some TxnStatus.in_progress <;>
        simp [markAborted, Table.find, hT, h]
    · by_cases h : kv.2.txn_status = some TxnStatus.in_progress <;>
        simp [markAborted, Table.find, hT, h] <;>
        simpa [markAborted] using ih

theorem postTbl_markAborted (log : List Entry) (t : Table TxnTableEntry)
    (h : PostTbl log t) : PostTbl log (markAborted t) := by
  obtain ⟨hnd, hp⟩ := h
  refine ⟨by rw [markAborted_keys]; exact hnd, ?_⟩
  intro T e hf
  rw [markAborted_find] at hf
  cases hf0 : Table.find t T with
  | none =>
    rw [hf0] at hf
    exact Option.noConfusion hf
  | some e0 =>
    rw [hf0] at hf
    simp at hf
    obtain ⟨L, p1, p2, p3⟩ := hp T e0 hf0
    refine ⟨L, ?_, p2, p3⟩
    rw [← hf]
    by_cases h : e0.txn_status = some TxnStatus.in_progress <;> simp [h, p1]

theorem postTbl_of_anaInv (log : List Entry) (nf : Nat) (t : Table TxnTableEntry)
    (hCE : CommitEnds log nf) (hA : AnaInv log log.length t) : PostTbl log t := by
  obtain ⟨hnd, hp⟩ := hA
  refine ⟨hnd, fun T e hf => ?_⟩
  obtain ⟨L, p1, p2, p3⟩ := hp T e hf
  rcases p3 with p3 | ⟨⟨lc, prc, hcget⟩, hle⟩
  · exact ⟨L, p1, p2, p3⟩
  · obtain ⟨hend, hnf2⟩ := hCE L lc T prc hcget
    have := getElem?_some_lt hend
    omega

theorem latest_ckpt_aux_le : ∀ (t : List Entry) (i best : Nat), best ≤ i →
    latest_ckpt_aux t i best ≤ i + t.length := by
  intro t
  induction t with
  | nil =>
    intro i best h
    show best ≤ i + 0
    omega
  | cons e t ih =>
    intro i best h
    show latest_ckpt_aux t (i + 1) _ ≤ _
    have hb : (match e with | Entry.checkpoint .. => i | _ => best) ≤ i + 1 := by
      cases e <;> simp <;> omega
    have := ih (i + 1) _ hb
    simp [List.length_cons]
    omega

theorem latest_checkpoint_le (s : State) : latest_checkpoint_lsn s ≤ s.log.length := by
  have := latest_ckpt_aux_le s.log 0 0 (le_refl 0)
  simpa using this

theorem analysisSnaps_final (s0 : State) (nf : Nat)
    (hIdx : LsnIdx s0.log) (hCE : CommitEnds s0.log nf) (hCk : CkptTbl s0.log)
    (htbl : s0.txn_table = []) :
    ((analysisSnaps s0).getLastD s0).log = s0.log ∧
      PostTbl s0.log ((analysisSnaps s0).getLastD s0).txn_table := by
  have hred : ∀ sE : State,
      (analysisSteps { s0 with phase := Phase.analysis, log_position := some (latest_checkpoint_lsn s0) }
        (s0.log.drop (latest_checkpoint_lsn s0))).getLastD
        { s0 with phase := Phase.analysis, log_position := some (latest_checkpoint_lsn s0) } = sE →
      (analysisSnaps s0).getLastD s0 = { sE with txn_table := markAborted sE.txn_table } := by
    intro sE hE
    subst hE
    exact getLastD_concat' _ _ _
  obtain ⟨r1, r2⟩ := ana_scan nf (s0.log.drop (latest_checkpoint_lsn s0))
    (latest_checkpoint_lsn s0)
    { s0 with phase := Phase.analysis, log_position := some (latest_checkpoint_lsn s0) }
    hIdx hCE hCk rfl
    (by show AnaInv s0.log _ s0.txn_table
        rw [htbl]
        exact anaInv_vacuous _ _)
  rw [hred _ rfl]
  constructor
  · exact r1
  · show PostTbl s0.log (markAborted _)
    apply postTbl_markAborted
    have hlen : latest_checkpoint_lsn s0 +
        (s0.log.drop (latest_checkpoint_lsn s0)).length = s0.log.length := by
      rw [List.length_drop]
      have := latest_checkpoint_le s0
      omega
    apply postTbl_of_anaInv s0.log nf
    · exact hCE
    · rw [← hlen]
      exact r2

/-! The redo phase preserves the log and the transaction table. -/

theorem redoSteps_final_frame : ∀ (es : List Entry) (s d : State),
    d.log = s.log → d.txn_table = s.txn_table →
    ((redoSteps s es).getLastD d).log = s.log ∧
      ((redoSteps s es).getLastD d).txn_table = s.txn_table := by
  intro es
  induction es with
  | nil =>
    intro s d h1 h2
    exact ⟨h1, h2⟩
  | cons e rest ih =>
    intro s d h1 h2
    rw [redoSteps, List.getLastD_cons]
    have f := redo_entry_frame s e
    obtain ⟨r1, r2⟩ := ih (bump_pos (redo_entry s e)) (bump_pos (redo_entry s e)) rfl rfl
    constructor
    · rw [r1]
      exact f.1
    · rw [r2]
      exact f.2.1

theorem redoFinal_frame (s : State) :
    (redoFinal s).log = s.log ∧ (redoFinal s).txn_table = s.txn_table := by
  unfold redoFinal redoSnaps
  cases hmin : min_rec_lsn s with
  | none => exact ⟨rfl, rfl⟩
  | some start =>
    show ((redoSteps { s with phase := Phase.redo, log_position := some start }
        (s.log.drop start)).getLastD s).log = s.log ∧
      ((redoSteps { s with phase := Phase.redo, log_position := some start }
        (s.log.drop start)).getLastD s).txn_table = s.txn_table
    exact redoSteps_final_frame (s.log.drop start)
      { s with phase := Phase.redo, log_position := some start } s rfl rfl

/-! Bookkeeping facts about one undo iteration. -/

theorem set_last_lsn_keys (s : State) (T : String) (l : Nat) :
    Table.keys (set_last_lsn s T l).txn_table = Table.keys s.txn_table := by
  unfold set_last_lsn
  cases hf : Table.find s.txn_table T with
  | none => rfl
  | some e =>
    show Table.keys (Table.set s.txn_table T _) = _
    exact Table.keys_set_of_mem _ _ _
      (Table.mem_keys_of_find_isSome _ _ (by rw [hf]; rfl))

theorem undoClr_log (s : State) (T p b : String) (pr : Option Nat) :
    (undoClr s T p b pr).log = s.log ++ [Entry.clr s.log.length T p (jsOfOptNat pr)
      (JSVal.str b) (last_lsn s T)] := rfl

theorem undoClr_txn (s : State) (T p b : String) (pr : Option Nat) :
    (undoClr s T p b pr).txn_table = s.txn_table := rfl

theorem undoApply_log (s : State) (p v : String) (L : Nat) :
    (undoApply s p v L).log = s.log := by
  unfold undoApply
  cases Table.find s.buffer_pool p <;> rfl

theorem undoApply_txn (s : State) (p v : String) (L : Nat) :
    (undoApply s p v L).txn_table = s.txn_table := by
  unfold undoApply
  cases Table.find s.buffer_pool p <;> rfl

theorem undoStep_some (s : State) (rest : List Nat) (elsn : Nat)
    (T p b : String) (q : Nat) :
    (undoStep s rest elsn T p b (some q)).2 = rest ++ [q] ∧
      (∃ e2, (undoStep s rest elsn T p b (some q)).1.log = s.log ++ e2) ∧
      Table.keys (undoStep s rest elsn T p b (some q)).1.txn_table =
        Table.keys s.txn_table := by
  refine ⟨rfl, ⟨[Entry.clr s.log.length T p (jsOfOptNat (some q)) (JSVal.str b)
    (last_lsn s T)], ?_⟩, ?_⟩
  · show (set_last_lsn (undoApply (pin (undoClr s T p b (some q)) p) p b s.log.length)
        T s.log.length).log = _
    rw [(set_last_lsn_frame _ _ _).1, undoApply_log, pin_log, undoClr_log]
  · show Table.keys (set_last_lsn (undoApply (pin (undoClr s T p b (some q)) p) p b
        s.log.length) T s.log.length).txn_table = _
    rw [set_last_lsn_keys, undoApply_txn, pin_txn, undoClr_txn]

theorem undoStep_none (s : State) (rest : List Nat) (elsn : Nat)
    (T p b : String) (hnd : (Table.keys s.txn_table).Nodup) :
    (undoStep s rest elsn T p b none).2 = rest ∧
      (∃ e2, (undoStep s rest elsn T p b none).1.log = s.log ++ e2) ∧
      Table.keys (undoStep s rest elsn T p b none).1.txn_table =
        (Table.keys s.txn_table).erase T := by
  have h4 : (set_last_lsn (undoApply (pin (undoClr s T p b none) p) p b s.log.length)
      T s.log.length).log = s.log ++ [Entry.clr s.log.length T p (jsOfOptNat none)
      (JSVal.str b) (last_lsn s T)] := by
    rw [(set_last_lsn_frame _ _ _).1, undoApply_log, pin_log, undoClr_log]
  have hk : Table.keys (set_last_lsn (undoApply (pin (undoClr s T p b none) p) p b
      s.log.length) T s.log.length).txn_table = Table.keys s.txn_table := by
    rw [set_last_lsn_keys, undoApply_txn, pin_txn, undoClr_txn]
  refine ⟨rfl, ⟨[Entry.clr s.log.length T p (jsOfOptNat none) (JSVal.str b)
    (last_lsn s T), Entry.endE (s.log ++ [Entry.clr s.log.length T p (jsOfOptNat none)
    (JSVal.str b) (last_lsn s T)]).length T (some s.log.length)], ?_⟩, ?_⟩
  · show (set_last_lsn (undoApply (pin (undoClr s T p b none) p) p b s.log.length)
        T s.log.length).log ++ [Entry.endE (set_last_lsn (undoApply (pin
        (undoClr s T p b none) p) p b s.log.length) T s.log.length).log.length
        T (some s.log.length)] = _
    rw [h4, List.append_assoc]
    rfl
  · show Table.keys (Table.del (set_last_lsn (undoApply (pin (undoClr s T p b none)
        p) p b s.log.length) T s.log.length).txn_table T) = _
    rw [Table.keys_del_eq_erase _ T (by rw [hk]; exact hnd), hk]

/-! Permutation facts about Javascript's default sort, and the fuel
measure of the undo loop. -/

theorem jsSortInsert_perm (x : Nat) (l : List Nat) : (jsSortInsert x l).Perm (x :: l) := by
  induction l with
  | nil => exact List.Perm.refl _
  | cons y ys ih =>
    unfold jsSortInsert
    by_cases h : jsNumLt x y = true
    · rw [if_pos h]
    · rw [if_neg h]
      exact (ih.cons y).trans (List.Perm.swap x y ys)

theorem jsSort_perm (l : List Nat) : (jsSort l).Perm l := by
  induction l with
  | nil => exact List.Perm.refl _
  | cons x xs ih => exact (jsSortInsert_perm x (jsSort xs)).trans (ih.cons x)

theorem loser_measure_eq (l : List Nat) :
    loser_measure l = (l.map (fun x => x + 1)).sum := by
  induction l with
  | nil => rfl
  | cons x xs ih =>
    show x + 1 + loser_measure xs = ((x :: xs).map (fun x => x + 1)).sum
    rw [List.map_cons, List.sum_cons, ih]

theorem loser_measure_perm {l1 l2 : List Nat} (h : l1.Perm l2) :
    loser_measure l1 = loser_measure l2 := by
  rw [loser_measure_eq, loser_measure_eq]
  exact (h.map (fun x => x + 1)).sum_eq

theorem loser_measure_append (l1 l2 : List Nat) :
    loser_measure (l1 ++ l2) = loser_measure l1 + loser_measure l2 := by
  rw [loser_measure_eq, loser_measure_eq, loser_measure_eq, List.map_append,
    List.sum_append]

theorem loser_measure_single (x : Nat) : loser_measure [x] = x + 1 := by
  show x + 1 + 0 = x + 1
  omega

/-- Main induction for the undo loop: with fuel exceeding the measure, a
transaction table whose keys are in bijection with the pending loser LSNs
— each LSN locating an update entry of its transaction in the
prevLSN-chained pre-undo log — is completely emptied. -/
theorem undoLoop_txn_empty : ∀ (fuel : Nat) (log0 : List Entry) (s : State)
    (losers : List Nat) (pairs : List (String × Nat)),
    loser_measure losers < fuel →
    (∃ ext, s.log = log0 ++ ext) →
    UpdChain log0 →
    UndoInv log0 s.txn_table losers pairs →
    (undoLoop fuel s losers).2.1.txn_table = [] := by
  intro fuel
  induction fuel with
  | zero =>
    intro log0 s losers pairs hm hext hchain hinv
    exact absurd hm (Nat.not_lt_zero _)
  | succ fuel ih =>
    intro log0 s losers pairs hm hext hchain hinv
    obtain ⟨hnd, hkeys, hlos, hpairs⟩ := hinv
    rw [undoLoop]
    by_cases hemp : losers.isEmpty = true
    · rw [if_pos hemp]
      show s.txn_table = []
      have hlosnil : losers = [] := List.isEmpty_iff.1 hemp
      subst hlosnil
      have hpairsnil : pairs = [] := by
        have h1 : List.Perm ([] : List Nat) (pairs.map Prod.snd) :=
          Multiset.coe_eq_coe.1 hlos
        exact List.map_eq_nil_iff.1 h1.symm.eq_nil
      subst hpairsnil
      have hkeysnil : Table.keys s.txn_table = [] :=
        (Multiset.coe_eq_coe.1 hkeys).eq_nil
      exact List.map_eq_nil_iff.1 hkeysnil
    · have hlne : losers ≠ [] := by
        intro h0
        subst h0
        exact hemp rfl
      have hperm : (jsSort losers).Perm losers := jsSort_perm losers
      have hsne : jsSort losers ≠ [] := by
        intro h0
        have h1 : List.Perm ([] : List Nat) losers := h0 ▸ hperm
        exact hlne h1.symm.eq_nil
      have hpop : (jsSort losers).getLastD 0 = (jsSort losers).getLast hsne := by
        rw [List.getLastD_eq_getLast? 0 (jsSort losers),
          List.getLast?_eq_getLast (jsSort losers) hsne, Option.getD_some]
      have hLmem : (jsSort losers).getLast hsne ∈ losers :=
        hperm.mem_iff.1 (List.getLast_mem hsne)
      have hploss : List.Perm losers (pairs.map Prod.snd) := Multiset.coe_eq_coe.1 hlos
      have hLpairs : (jsSort losers).getLast hsne ∈ pairs.map Prod.snd :=
        hploss.mem_iff.1 hLmem
      obtain ⟨⟨T, L⟩, hprmem, hprsnd⟩ := List.mem_map.1 hLpairs
      replace hprsnd : L = (jsSort losers).getLast hsne := hprsnd
      obtain ⟨hLlt, hLupd⟩ := hpairs (T, L) hprmem
      obtain ⟨l0, pid, b0, a0, pr2, hupd⟩ := hLupd
      obtain ⟨ps1, ps2, hpairsEq⟩ := List.append_of_mem hprmem
      subst hpairsEq
      obtain ⟨ext, hextEq⟩ := hext
      have hslog : s.log[L]? = some (Entry.update l0 T pid b0 a0 pr2) := by
        rw [hextEq, getElem?_append_l hLlt]
        exact hupd
      have hscrut : s.log[(jsSort losers).getLastD 0]? =
          some (Entry.update l0 T pid b0 a0 pr2) := by
        rw [hpop, ← hprsnd]
        exact hslog
      rw [if_neg hemp]
      simp only []
      rw [hscrut]
      show (undoLoop fuel (undoStep s ((jsSort losers).dropLast) l0 T pid b0 pr2).1
        (undoStep s ((jsSort losers).dropLast) l0 T pid b0 pr2).2).2.1.txn_table = []
      have hdropL : (jsSort losers).dropLast ++ [L] = jsSort losers := by
        rw [hprsnd]
        exact List.dropLast_append_getLast hsne
      have hp2 : List.Perm (ps1 ++ (T, L) :: ps2) ((T, L) :: (ps1 ++ ps2)) :=
        List.perm_middle
      have hp3 : List.Perm ((ps1 ++ (T, L) :: ps2).map Prod.snd)
          (L :: (ps1 ++ ps2).map Prod.snd) := hp2.map Prod.snd
      have hp4 : List.Perm (jsSort losers)
          (L :: (ps1 ++ ps2).map Prod.snd) :=
        hperm.trans (hploss.trans hp3)
      have hp5 : List.Perm ((jsSort losers).dropLast ++ [L])
          (L :: (ps1 ++ ps2).map Prod.snd) := by
        rw [hdropL]
        exact hp4
      have hp6 : List.Perm (L :: (jsSort losers).dropLast)
          (L :: (ps1 ++ ps2).map Prod.snd) :=
        (List.perm_append_singleton L ((jsSort losers).dropLast)).symm.trans hp5
      have hdropperm : List.Perm ((jsSort losers).dropLast)
          ((ps1 ++ ps2).map Prod.snd) := hp6.cons_inv
      have hkp : List.Perm (Table.keys s.txn_table)
          ((ps1 ++ (T, L) :: ps2).map Prod.fst) := Multiset.coe_eq_coe.1 hkeys
      have hfst : List.Perm ((ps1 ++ (T, L) :: ps2).map Prod.fst)
          (T :: (ps1 ++ ps2).map Prod.fst) := hp2.map Prod.fst
      have hmeas : loser_measure ((jsSort losers).dropLast) + (L + 1) =
          loser_measure losers := by
        rw [← loser_measure_single L, ← loser_measure_append, hdropL,
          loser_measure_perm hperm]
      cases pr2 with
      | none =>
        obtain ⟨h2, ⟨e2, hlog2⟩, hkeys2⟩ :=
          undoStep_none s ((jsSort losers).dropLast) l0 T pid b0 hnd
        refine ih log0 _ _ (ps1 ++ ps2) ?_ ?_ hchain ?_
        · rw [h2]
          omega
        · exact ⟨ext ++ e2, by rw [hlog2, hextEq, List.append_assoc]⟩
        · refine ⟨?_, ?_, ?_, ?_⟩
          · rw [hkeys2]
            exact hnd.erase T
          · rw [hkeys2]
            refine Multiset.coe_eq_coe.2 ?_
            have e3 : (T :: (ps1 ++ ps2).map Prod.fst).erase T =
                (ps1 ++ ps2).map Prod.fst := List.erase_cons_head T _
            exact (hkp.erase T).trans (e3 ▸ hfst.erase T)
          · rw [h2]
            exact Multiset.coe_eq_coe.2 hdropperm
          · intro pr hpr
            rcases List.mem_append.1 hpr with h5 | h5
            · exact hpairs pr (List.mem_append_left _ h5)
            · exact hpairs pr (List.mem_append_right _ (List.mem_cons_of_mem _ h5))
      | some q =>
        obtain ⟨hqlt, hqupd⟩ := hchain L l0 T pid b0 a0 q hupd
        obtain ⟨h2, ⟨e2, hlog2⟩, hkeys2⟩ :=
          undoStep_some s ((jsSort losers).dropLast) l0 T pid b0 q
        refine ih log0 _ _ ((T, q) :: (ps1 ++ ps2)) ?_ ?_ hchain ?_
        · rw [h2, loser_measure_append, loser_measure_single]
          omega
        · exact ⟨ext ++ e2, by rw [hlog2, hextEq, List.append_assoc]⟩
        · refine ⟨?_, ?_, ?_, ?_⟩
          · rw [hkeys2]
            exact hnd
          · rw [hkeys2]
            exact Multiset.coe_eq_coe.2 (hkp.trans hfst)
          · rw [h2]
            refine Multiset.coe_eq_coe.2 ?_
            exact (List.perm_append_singleton q _).trans (hdropperm.cons q)
          · intro pr hpr
            rcases List.mem_cons.1 hpr with h5 | h5
            · subst h5
              exact ⟨Nat.lt_trans hqlt hLlt, hqupd⟩
            · rcases List.mem_append.1 h5 with h6 | h6
              · exact hpairs pr (List.mem_append_left _ h6)
              · exact hpairs pr (List.mem_append_right _ (List.mem_cons_of_mem _ h6))

/-! The initial undo invariant, read off the post-analysis transaction
table. -/

theorem table_pairs : ∀ (t : Table TxnTableEntry),
    (∀ kv ∈ t, (kv.2.last_lsn).isSome = true) →
    ((t.filterMap (fun kv => kv.2.last_lsn.map (fun L => (kv.1, L)))).map Prod.fst =
        Table.keys t ∧
      (t.filterMap (fun kv => kv.2.last_lsn.map (fun L => (kv.1, L)))).map Prod.snd =
        collect_losers t) := by
  intro t
  induction t with
  | nil =>
    intro _
    exact ⟨rfl, rfl⟩
  | cons kv t ih =>
    intro h
    obtain ⟨L, hL⟩ := Option.isSome_iff_exists.1 (h kv (List.mem_cons_self kv t))
    obtain ⟨ih1, ih2⟩ := ih (fun kv2 hm => h kv2 (List.mem_cons_of_mem kv hm))
    unfold collect_losers at ih2 ⊢
    simp only [List.filterMap_cons, hL, Option.map_some', Table.keys_cons, List.map_cons]
    exact ⟨congrArg (fun l => kv.1 :: l) ih1, congrArg (fun l => L :: l) ih2⟩

theorem undoInv_init (log0 : List Entry) (t : Table TxnTableEntry) (h : PostTbl log0 t) :
    UndoInv log0 t (collect_losers t)
      (t.filterMap (fun kv => kv.2.last_lsn.map (fun L => (kv.1, L)))) := by
  obtain ⟨hnd, hp⟩ := h
  have hsome : ∀ kv ∈ t, (kv.2.last_lsn).isSome = true := by
    intro kv hm
    obtain ⟨L, hL, _, _⟩ := hp kv.1 kv.2
      (Table.find_eq_some_of_mem t kv.1 kv.2 hnd (by rw [Prod.mk.eta]; exact hm))
    rw [hL]
    rfl
  obtain ⟨hfst, hsnd⟩ := table_pairs t hsome
  refine ⟨hnd, ?_, ?_, ?_⟩
  · rw [hfst]
  · rw [hsnd]
  · intro pr hpr
    obtain ⟨kv, hkvmem, hkveq⟩ := List.mem_filterMap.1 hpr
    obtain ⟨L, hL⟩ := Option.isSome_iff_exists.1 (hsome kv hkvmem)
    rw [hL, Option.map_some'] at hkveq
    injection hkveq with hkveq2
    subst hkveq2
    obtain ⟨L2, hL2, hlt, hup⟩ := hp kv.1 kv.2
      (Table.find_eq_some_of_mem t kv.1 kv.2 hnd (by rw [Prod.mk.eta]; exact hkvmem))
    rw [hL] at hL2
    injection hL2 with hL2e
    subst hL2e
    exact ⟨hlt, hup⟩

/-- With the fuel supplied by `undoSnaps`, the undo loop drains a
transaction table satisfying the post-analysis invariant over a
prevLSN-chained log. -/
theorem undoSnaps_txn_empty (s0 : State) (hch : UpdChain s0.log)
    (hpost : PostTbl s0.log s0.txn_table) (d : State) :
    ((undoSnaps s0).getLastD d).txn_table = [] := by
  unfold undoSnaps
  simp only []
  rw [getLastD_concat']
  refine undoLoop_txn_empty _ s0.log _ _
    (s0.txn_table.filterMap (fun kv => kv.2.last_lsn.map (fun L => (kv.1, L))))
    ?_ ⟨[], ?_⟩ hch ?_
  · omega
  · rw [List.append_nil]
  · exact undoInv_init s0.log s0.txn_table hpost

/-! Claim C3 (amended): the undo phase empties the transaction table. -/

/-- C3 (amended): when the undo phase of a run finishes, every loser
transaction has been fully rolled back and removed: the transaction table
of the final simulation snapshot is empty.  (The original claim's further
assertion that no buffer-pool page still holds a value written by a loser
is refuted by `C3_counterexample`: a non-loser can write the same value.) -/
theorem C3_txn_table_empty (ops : List Op) : (simulateFinal ops).txn_table = [] := by
  obtain ⟨hIdx, hCh, hCE, hCk⟩ := crashInv (forwardFinal ops) (fwdInv_forwardFinal ops)
  obtain ⟨hAlog, hApost⟩ := analysisSnaps_final (crashState ops)
    (crashState ops).num_flushed hIdx hCE hCk rfl
  have hAlog2 : (analysisFinal ops).log = (crashState ops).log := hAlog
  have hApost2 : PostTbl (crashState ops).log (analysisFinal ops).txn_table := hApost
  obtain ⟨hRlog, hRtxn⟩ := redoFinal_frame (analysisFinal ops)
  have hRL : (redoFinalOf ops).log = (crashState ops).log := hRlog.trans hAlog2
  have hRT : (redoFinalOf ops).txn_table = (analysisFinal ops).txn_table := hRtxn
  have hch2 : UpdChain (redoFinalOf ops).log := by
    rw [hRL]
    exact hCh
  have hpost2 : PostTbl (redoFinalOf ops).log (redoFinalOf ops).txn_table := by
    rw [hRL, hRT]
    exact hApost2
  exact undoSnaps_txn_empty (redoFinalOf ops) hch2 hpost2 (initState ops)

end aries
